import Mathlib

/-!
# Verification of the zrnt-ssz / zssz codec core

A shallow embedding, in Lean 4, of the SSZ codec engine of this repository:
the scoped decoding reader (`dec` package), the parametric variable-size
series encoder/decoder (`types/elem_var_size_series.go`), the container
handler (`SSZContainer`), the pointer handler (`SSZPtr`), the list/vector
handlers (`ssz_list.go`, `ssz_vector.go`), the slice-allocation policy
(`util/ptrutil/allocation.go`), and — modelled from the specification where
the corresponding packages are not part of the provided sources — the
two-phase encoding writer, the basic-type codecs, the fixed-series decoder
and the Merkleizer.

Bytes are modelled as `List Nat` (each entry `< 256` for real byte data),
machine integers as `Nat` with explicit truncation (`% 256`, `% 2^32`)
where the Go code truncates.  Go functions that can fail return values in
`Except Err _`; the decoding reader is threaded explicitly as state.
-/

namespace ZSSZ

/-- Byte strings: lists of naturals (each `< 256` when well-formed). -/
abbrev Bytes := List Nat

/-- `BYTES_PER_LENGTH_OFFSET` from the source: SSZ offsets are 4 bytes wide. -/
def BYTES_PER_LENGTH_OFFSET : Nat := 4

/-- Little-endian serialization of `x` into `w` bytes, truncating like Go's
`binary.LittleEndian.PutUintN` does (each byte is `x / 256^k % 256`). -/
def leBytes (w : Nat) (x : Nat) : Bytes :=
  match w with
  | 0 => []
  | w' + 1 => (x % 256) :: leBytes w' (x / 256)

/-- Little-endian deserialization, as in Go's `binary.LittleEndian.UintN`. -/
def fromLEBytes (bs : Bytes) : Nat :=
  match bs with
  | [] => 0
  | b :: rest => b + 256 * fromLEBytes rest

/-- Error kinds of the codec (the Go code returns `error` values; we only
track which check failed, not the message text). -/
inductive Err : Type where
  /-- `checkedIndexUpdate`: a read would pass the scope's `max`. -/
  | beyondScope : Err
  /-- the underlying input had fewer bytes than requested. -/
  | shortRead : Err
  /-- `Scope`: requested child scope exceeds the parent's remaining span. -/
  | scopeTooBig : Err
  /-- `ReadVarSeriesOffsets`: first offset disagrees with the series length. -/
  | seriesLengthMismatch : Err
  /-- `ReadVarSliceOffsets`: non-empty series starting at a nonzero index. -/
  | badStartIndex : Err
  /-- `ReadVarSliceOffsets`: invalid first offset (too big or not a multiple of 4). -/
  | invalidFirstOffset : Err
  /-- list length above the declared limit. -/
  | limitExceeded : Err
  /-- `ReadVarSliceOffsets`: minimum element sizes cannot fit the scope. -/
  | cannotFit : Err
  /-- offset table was not read to exactly `4*length` bytes. -/
  | offsetTableMismatch : Err
  /-- reader index at an element boundary differs from the recorded offset. -/
  | offsetIndexMismatch : Err
  /-- a decreasing pair of consecutive offsets. -/
  | invalidOffset : Err
  /-- a series decode did not consume its scope up to `max`. -/
  | scopeNotExhausted : Err
  /-- container fixed part: a field advanced the reader by an unexpected amount. -/
  | fixedPartSizeMismatch : Err
  /-- container fixed part did not end exactly at `fixedLen` bytes. -/
  | fixedPartEndMismatch : Err
  /-- boolean byte not in {0,1}. -/
  | invalidBool : Err
  /-- fixed-element list: remaining bytes not a multiple of the element size. -/
  | lengthMismatch : Err
  /-- fixed-element list with element size zero (a division by zero panics in Go). -/
  | divisionByZero : Err
  /-- container dynamic part consulted a missing offset (out-of-range index in Go). -/
  | internalErr : Err
  /-- `NewSSZContainer`: a fixed-size field whose `FixedLen` differs from its
  `MinLen` or `MaxLen`. -/
  | malformedFixedField : Err
  /-- recursion fuel exhausted (an artifact of the embedding; never hit when
  the fuel is at least the depth of the type). -/
  | fuelOut : Err
deriving DecidableEq, Repr

/-- The decoding reader (`dec.DecodingReader`): `stream` is the not yet
consumed suffix of the shared underlying input, `i` the number of bytes
consumed within the current scope, `max` the scope's capacity. -/
structure Reader where
  stream : Bytes
  i : Nat
  max : Nat
deriving DecidableEq, Repr

/-- `DecodingReader.Read` (via `checkedIndexUpdate`): reading `n` bytes fails
before consuming anything if it would pass `max`; it fails after advancing
if the underlying input is too short (Go updates the index first and then
performs the raw read). -/
def readBytes (r : Reader) (n : Nat) : (Except Err Bytes) × Reader :=
  if r.i + n > r.max then (.error .beyondScope, r)
  else if r.stream.length < n then
    (.error .shortRead, ⟨[], r.i + n, r.max⟩)
  else (.ok (r.stream.take n), ⟨r.stream.drop n, r.i + n, r.max⟩)

/-- `DecodingReader.ReadOffset`: reads a little-endian `uint32` and widens it. -/
def readOffset (r : Reader) : (Except Err Nat) × Reader :=
  match readBytes r 4 with
  | (.error e, r') => (.error e, r')
  | (.ok bs, r') => (.ok (fromLEBytes bs), r')

/-- `DecodingReader.Scope`: carves a child scope of `count` bytes sharing the
underlying input; fails if the remaining span `max - i` is smaller.  The
parent is not modified. -/
def scopeReader (r : Reader) (count : Nat) : Except Err Reader :=
  if r.max - r.i < count then .error .scopeTooBig
  else .ok ⟨r.stream, 0, count⟩

/-- `DecodingReader.UpdateIndexFromScoped`: after a child scope completes, the
parent advances its index by the child's consumed bytes; the underlying
input position is shared, so the parent continues from the child's stream. -/
def updateIndexFromScoped (parent child : Reader) : Reader :=
  ⟨child.stream, parent.i + child.i, parent.max⟩

/-- The SSZ kind algebra: basic scalars, fixed vectors, limited lists,
containers (an ordered field list) and the pointer proxy. -/
inductive SSZT : Type where
  | tu8 : SSZT
  | tu16 : SSZT
  | tu32 : SSZT
  | tu64 : SSZT
  | tbool : SSZT
  | tvector (e : SSZT) (n : Nat) : SSZT
  | tlist (e : SSZT) (limit : Nat) : SSZT
  | tcontainer (fields : List SSZT) : SSZT
  | tptr (e : SSZT) : SSZT

/-- In-memory values: unsigned integers (any width; the handler fixes the
width), booleans, and sequences (used for vectors, lists and for the field
tuple of a container).  The pointer kind shares its target's values. -/
inductive Value : Type where
  | vuint (n : Nat) : Value
  | vbool (b : Bool) : Value
  | vseq (vs : List Value) : Value

mutual

/-- `IsFixed()` of each handler: basics are fixed, a vector is fixed iff its
element is, a list is never fixed, a container is fixed iff all its fields
are (`offsetCount == 0` in `NewSSZContainer`), a pointer delegates. -/
def isFixedT : SSZT → Bool
  | .tu8 => true
  | .tu16 => true
  | .tu32 => true
  | .tu64 => true
  | .tbool => true
  | .tvector e _ => isFixedT e
  | .tlist _ _ => false
  | .tcontainer fs => isFixedFields fs
  | .tptr e => isFixedT e

/-- All fields fixed (the loop of `NewSSZContainer` leaves `offsetCount = 0`). -/
def isFixedFields : List SSZT → Bool
  | [] => true
  | f :: fs => isFixedT f && isFixedFields fs

end

mutual

/-- `FixedLen()` of each handler, as the sources compute it: basic widths;
`elemSSZ.FixedLen() * length` for a vector (`ssz_vector.go`); `0` for a list
(`ssz_list.go`); for a container the sum over fields of the field's fixed
length for fixed fields and `BYTES_PER_LENGTH_OFFSET` for variable fields
(`NewSSZContainer`); delegation for a pointer (`SSZPtr.FixedLen`). -/
def fixedLenT : SSZT → Nat
  | .tu8 => 1
  | .tu16 => 2
  | .tu32 => 4
  | .tu64 => 8
  | .tbool => 1
  | .tvector e n => fixedLenT e * n
  | .tlist _ _ => 0
  | .tcontainer fs => fixedLenFields fs
  | .tptr e => fixedLenT e

/-- The fixed-region length of a container: `Σ (fixed ? fixed_len : 4)`. -/
def fixedLenFields : List SSZT → Nat
  | [] => 0
  | f :: fs => (if isFixedT f then fixedLenT f else BYTES_PER_LENGTH_OFFSET) + fixedLenFields fs

end

mutual

/-- Nesting depth of a type, used as recursion fuel for the fueled
functions over the algebra (`depthT t` units of fuel always suffice). -/
def depthT : SSZT → Nat
  | .tu8 => 1
  | .tu16 => 1
  | .tu32 => 1
  | .tu64 => 1
  | .tbool => 1
  | .tvector e _ => depthT e + 1
  | .tlist e _ => depthT e + 1
  | .tcontainer fs => depthFields fs + 1
  | .tptr e => depthT e + 1

/-- Maximum depth of a field list. -/
def depthFields : List SSZT → Nat
  | [] => 0
  | f :: fs => max (depthT f) (depthFields fs)

end

mutual

/-- Well-formedness of a type: no list has a fixed-size element type of
size zero (for such a list Go's `DecodeFixedSlice` divides by zero and the
element count is not recoverable from the wire). -/
def wfT : SSZT → Bool
  | .tu8 => true
  | .tu16 => true
  | .tu32 => true
  | .tu64 => true
  | .tbool => true
  | .tvector e _ => wfT e
  | .tlist e _ => (!isFixedT e || decide (fixedLenT e ≠ 0)) && wfT e
  | .tcontainer fs => wfFields fs
  | .tptr e => wfT e

/-- Well-formedness of every field. -/
def wfFields : List SSZT → Bool
  | [] => true
  | f :: fs => wfT f && wfFields fs

end

/-- A decoder function: Go's `dec.DecoderFn`, with the decoded value returned
instead of written through a pointer, and the reader threaded as state. -/
abbrev DecFn := Reader → (Except Err Value) × Reader

/-- The offset-reading loop shared by `ReadVarSeriesOffsets` and
`ReadVarSliceOffsets`: read `k` further offsets in order. -/
def readOffsets (k : Nat) (r : Reader) : (Except Err (List Nat)) × Reader :=
  match k with
  | 0 => (.ok [], r)
  | k' + 1 =>
    match readOffset r with
    | (.error e, r') => (.error e, r')
    | (.ok o, r') =>
      match readOffsets k' r' with
      | (.error e, r'') => (.error e, r'')
      | (.ok os, r'') => (.ok (o :: os), r'')

/-- `ReadVarSeriesOffsets` (known element count, used for vectors of
variable-size elements): nothing to read for an empty series; otherwise the
first offset must yield `firstOffset / 4 == length`, and the remaining
`length - 1` offsets are read in order. -/
def readVarSeriesOffsets (length : Nat) (r : Reader) : (Except Err (List Nat)) × Reader :=
  if length = 0 then (.ok [], r)
  else
    match readOffset r with
    | (.error e, r') => (.error e, r')
    | (.ok firstOffset, r') =>
      if firstOffset / BYTES_PER_LENGTH_OFFSET ≠ length then (.error .seriesLengthMismatch, r')
      else
        match readOffsets (length - 1) r' with
        | (.error e, r'') => (.error e, r'')
        | (.ok os, r'') => (.ok (firstOffset :: os), r'')

/-- `ReadVarSliceOffsets` (element count derived from the first offset, used
for lists of variable-size elements).  An empty scope decodes to the empty
series; a non-empty one must start at index 0, the first offset must be a
multiple of 4 and no larger than `bytesLen`, the derived length must respect
`limit`, the minimal element sizes must fit `Max()`, and after reading all
offsets the index must be exactly `4 * length`. -/
def readVarSliceOffsets (minElemLen bytesLen limit : Nat) (r : Reader) :
    (Except Err (List Nat)) × Reader :=
  if bytesLen = 0 then (.ok [], r)
  else if r.i ≠ 0 then (.error .badStartIndex, r)
  else
    match readOffset r with
    | (.error e, r') => (.error e, r')
    | (.ok firstOffset, r') =>
      if firstOffset > bytesLen ∨ firstOffset % BYTES_PER_LENGTH_OFFSET ≠ 0 then
        (.error .invalidFirstOffset, r')
      else
        let length := firstOffset / BYTES_PER_LENGTH_OFFSET
        if length > limit then (.error .limitExceeded, r')
        else if minElemLen * length > r'.max then (.error .cannotFit, r')
        else
          match readOffsets (length - 1) r' with
          | (.error e, r'') => (.error e, r'')
          | (.ok os, r'') =>
            if r''.i ≠ BYTES_PER_LENGTH_OFFSET * length then (.error .offsetTableMismatch, r'')
            else (.ok (firstOffset :: os), r'')

/-- `decodeVarSeriesFromOffsets`: decode one element per recorded offset.  At
each element the reader's index must equal the recorded offset; the element's
scope is the distance to the next offset (failing on a decreasing pair) or
`max - offset` for the last element; the element is decoded in a child scope
and the parent index is advanced only on success.  After the last element the
index must equal `max`. -/
def decodeVarSeriesFromOffsets (decFn : DecFn) (offsets : List Nat) (r : Reader) :
    (Except Err (List Value)) × Reader :=
  match offsets with
  | [] =>
    if r.i ≠ r.max then (.error .scopeNotExhausted, r) else (.ok [], r)
  | o :: rest =>
    let currentOffset := r.i
    if currentOffset ≠ o then (.error .offsetIndexMismatch, r)
    else
      let scopeRes : Except Err Nat :=
        match rest with
        | nextOffset :: _ =>
          if nextOffset ≥ currentOffset then .ok (nextOffset - currentOffset)
          else .error .invalidOffset
        | [] => .ok (r.max - currentOffset)
      match scopeRes with
      | .error e => (.error e, r)
      | .ok scopeSize =>
        match scopeReader r scopeSize with
        | .error e => (.error e, r)
        | .ok child =>
          match decFn child with
          | (.error e, child') => (.error e, ⟨child'.stream, r.i, r.max⟩)
          | (.ok v, child') =>
            let r' := updateIndexFromScoped r child'
            match decodeVarSeriesFromOffsets decFn rest r' with
            | (.error e, r'') => (.error e, r'')
            | (.ok vs, r'') => (.ok (v :: vs), r'')

/-- `decodeOffsetElem` (container dynamic fields): the reader's index must
equal the expected offset; the field is decoded in a child scope of the given
size, and the parent's index is advanced from the child only on success. -/
def decodeOffsetElem (decFn : DecFn) (expectedOffset scopeSize : Nat) (r : Reader) :
    (Except Err Value) × Reader :=
  let currentOffset := r.i
  if expectedOffset ≠ currentOffset then (.error .offsetIndexMismatch, r)
  else
    match scopeReader r scopeSize with
    | .error e => (.error e, r)
    | .ok child =>
      match decFn child with
      | (.error e, child') => (.error e, ⟨child'.stream, r.i, r.max⟩)
      | (.ok v, child') => (.ok v, updateIndexFromScoped r child')

/-- Modelled from the spec: `DecodeFixedSeries` is not among the provided
sources.  Per §4.4, elements of a fixed-size series are decoded contiguously
in the parent scope (no per-element scope, no offset table). -/
def decodeFixedSeries (decFn : DecFn) (n : Nat) (r : Reader) :
    (Except Err (List Value)) × Reader :=
  match n with
  | 0 => (.ok [], r)
  | n' + 1 =>
    match decFn r with
    | (.error e, r') => (.error e, r')
    | (.ok v, r') =>
      match decodeFixedSeries decFn n' r' with
      | (.error e, r'') => (.error e, r'')
      | (.ok vs, r'') => (.ok (v :: vs), r'')

/-- What the container code sees of a field handler (the `SSZ` interface
methods it consults during decoding), plus the field's decoder. -/
structure FieldH where
  isFixed : Bool
  fixedLen : Nat
  decFn : DecFn

/-- The loop of `SSZContainer.decodeFixedPart`: fixed fields are decoded
inline (no child scope); for each variable field a `uint32` offset is read
and collected.  After every field the reader's index must equal the running
expected position `fixedI`.  Returns the decoded fixed-field values (`none`
slots for variable fields) and the collected offsets. -/
def decodeFixedPartLoop (fields : List FieldH) (fixedI : Nat) (r : Reader) :
    (Except Err (List (Option Value) × List Nat)) × Reader :=
  match fields with
  | [] => (.ok ([], []), r)
  | f :: rest =>
    if f.isFixed then
      let fixedI' := fixedI + f.fixedLen
      match f.decFn r with
      | (.error e, r') => (.error e, r')
      | (.ok v, r') =>
        if r'.i ≠ fixedI' then (.error .fixedPartSizeMismatch, r')
        else
          match decodeFixedPartLoop rest fixedI' r' with
          | (.error e, r'') => (.error e, r'')
          | (.ok (slots, offs), r'') => (.ok (some v :: slots, offs), r'')
    else
      let fixedI' := fixedI + BYTES_PER_LENGTH_OFFSET
      match readOffset r with
      | (.error e, r') => (.error e, r')
      | (.ok off, r') =>
        if r'.i ≠ fixedI' then (.error .fixedPartSizeMismatch, r')
        else
          match decodeFixedPartLoop rest fixedI' r' with
          | (.error e, r'') => (.error e, r'')
          | (.ok (slots, offs), r'') => (.ok (none :: slots, off :: offs), r'')

/-- `SSZContainer.decodeFixedPart`: run the field loop starting at the
current index, then check that the reader stopped exactly `fixedLen` bytes
after the start. -/
def decodeFixedPart (fields : List FieldH) (fixedLen : Nat) (r : Reader) :
    (Except Err (List (Option Value) × List Nat)) × Reader :=
  let startIndex := r.i
  match decodeFixedPartLoop fields r.i r with
  | (.error e, r') => (.error e, r')
  | (.ok (slots, offs), r') =>
    if r'.i ≠ fixedLen + startIndex then (.error .fixedPartEndMismatch, r')
    else (.ok (slots, offs), r')

/-- `SSZContainer.decodeDynamicPart`: walk the fields in order; fixed fields
keep their already decoded value (Go skips them, their struct slots being
already written); each variable field consumes the next recorded offset, with
the scope given by the distance to the following offset (failing on a
decreasing pair) or by `max - offset` for the last one, and is decoded via
`decodeOffsetElem`. -/
def decodeDynamicPart (pairs : List (FieldH × Option Value)) (offsets : List Nat)
    (r : Reader) : (Except Err (List Value)) × Reader :=
  match pairs with
  | [] => (.ok [], r)
  | (f, slot) :: rest =>
    if f.isFixed then
      match slot with
      | some v =>
        match decodeDynamicPart rest offsets r with
        | (.error e, r') => (.error e, r')
        | (.ok vs, r') => (.ok (v :: vs), r')
      | none => (.error .internalErr, r)
    else
      match offsets with
      | [] => (.error .internalErr, r)
      | currentOffset :: orest =>
        let scopeRes : Except Err Nat :=
          match orest with
          | nextOffset :: _ =>
            if nextOffset ≥ currentOffset then .ok (nextOffset - currentOffset)
            else .error .invalidOffset
          | [] => .ok (r.max - currentOffset)
        match scopeRes with
        | .error e => (.error e, r)
        | .ok scopeSize =>
          match decodeOffsetElem f.decFn currentOffset scopeSize r with
          | (.error e, r') => (.error e, r')
          | (.ok v, r') =>
            match decodeDynamicPart rest orest r' with
            | (.error e, r'') => (.error e, r'')
            | (.ok vs, r'') => (.ok (v :: vs), r'')

/-- `SSZContainer.decodeVarSize`: the two-pass container decode — fixed pass
then dynamic pass (the non-fuzz-mode path of `SSZContainer.Decode`). -/
def containerDecode (fields : List FieldH) (fixedLen : Nat) (r : Reader) :
    (Except Err (List Value)) × Reader :=
  match decodeFixedPart fields fixedLen r with
  | (.error e, r') => (.error e, r')
  | (.ok (slots, offs), r') => decodeDynamicPart (fields.zip slots) offs r'

/-- `SizeOf`: the serialized byte size of a value.  The container case is
`SSZContainer.SizeOf` from the sources (`fixedLen` plus the sizes of the
variable fields); the series cases are modelled from the spec (`size_of(v)
== len(encode(v))`): element sizes for a fixed-element series, offset table
plus element sizes for a variable-element series.  Fueled on the nesting
depth of the type (`depthT t` always suffices). -/
def sszSize : Nat → SSZT → Value → Nat
  | 0, _, _ => 0
  | fuel + 1, t, v =>
    match t, v with
    | .tu8, _ => 1
    | .tu16, _ => 2
    | .tu32, _ => 4
    | .tu64, _ => 8
    | .tbool, _ => 1
    | .tptr e, w => sszSize fuel e w
    | .tvector e _, .vseq vs =>
      if isFixedT e then fixedLenT e * vs.length
      else BYTES_PER_LENGTH_OFFSET * vs.length + (vs.map (fun w => sszSize fuel e w)).sum
    | .tlist e _, .vseq vs =>
      if isFixedT e then fixedLenT e * vs.length
      else BYTES_PER_LENGTH_OFFSET * vs.length + (vs.map (fun w => sszSize fuel e w)).sum
    | .tcontainer fs, .vseq vs =>
      fixedLenFields fs +
        ((fs.zip vs).map (fun fv => if isFixedT fv.1 then 0 else sszSize fuel fv.1 fv.2)).sum
    | _, _ => 0

/-- The offset-writing loop of `EncodeVarSeries`: each element writes
`prevOffset + prevSize` as a `uint32` (modelled from the spec, the `enc`
package's `WriteOffset(prevOffset, prevSize)` not being among the provided
sources) and the written offset becomes the next `prevOffset`, with
`prevSize` the size of the element just passed. -/
def encVarSeriesOffsets (szFn : Value → Nat) (vs : List Value) (prevOffset prevSize : Nat) :
    Bytes :=
  match vs with
  | [] => []
  | v :: rest =>
    let offset := prevOffset + prevSize
    leBytes 4 offset ++ encVarSeriesOffsets szFn rest offset (szFn v)

/-- The fixed-region loop of `SSZContainer.Encode` over precomputed
`(isFixed, payload)` pairs: fixed fields are written inline; each variable
field writes the offset `fixedLen + fwdLen` (modelled from the spec: the
`enc` package's buffer writes `fixed_len` plus the bytes already staged on
the forward queue) and stages its payload, growing `fwdLen` by its length. -/
def encContainerFixedPart (pairs : List (Bool × Bytes)) (fixedLen fwdLen : Nat) : Bytes :=
  match pairs with
  | [] => []
  | (true, bs) :: rest => bs ++ encContainerFixedPart rest fixedLen fwdLen
  | (false, bs) :: rest =>
    leBytes 4 (fixedLen + fwdLen) ++ encContainerFixedPart rest fixedLen (fwdLen + bs.length)

/-- The forward queue contents after `SSZContainer.Encode`'s loop: the
variable fields' payloads in declaration order (flushed after the fixed
region when the container is variable; a fixed container stages nothing). -/
def encContainerVarPart (pairs : List (Bool × Bytes)) : Bytes :=
  match pairs with
  | [] => []
  | (true, _) :: rest => encContainerVarPart rest
  | (false, bs) :: rest => bs ++ encContainerVarPart rest

/-- The encoder.  Basic values are little-endian (modelled from the spec,
§4.3); a pointer dereferences and delegates (`SSZPtr.Encode`); a fixed
series is the contiguous element encodings (modelled from the spec, §4.4);
a variable series is the `EncodeVarSeries` offset table followed by the
element payloads; a container is its fixed region followed by the flushed
forward queue (`SSZContainer.Encode`).  Encoding a value that does not
match the type's shape yields `[]` (in Go this is unreachable: values are
typed).  Fueled on the nesting depth of the type. -/
def enc : Nat → SSZT → Value → Bytes
  | 0, _, _ => []
  | fuel + 1, t, v =>
    match t, v with
    | .tu8, .vuint n => leBytes 1 n
    | .tu16, .vuint n => leBytes 2 n
    | .tu32, .vuint n => leBytes 4 n
    | .tu64, .vuint n => leBytes 8 n
    | .tbool, .vbool b => [if b then 1 else 0]
    | .tptr e, w => enc fuel e w
    | .tvector e _, .vseq vs =>
      if isFixedT e then (vs.map (fun w => enc fuel e w)).flatten
      else
        encVarSeriesOffsets (fun w => sszSize fuel e w) vs (BYTES_PER_LENGTH_OFFSET * vs.length) 0
          ++ (vs.map (fun w => enc fuel e w)).flatten
    | .tlist e _, .vseq vs =>
      if isFixedT e then (vs.map (fun w => enc fuel e w)).flatten
      else
        encVarSeriesOffsets (fun w => sszSize fuel e w) vs (BYTES_PER_LENGTH_OFFSET * vs.length) 0
          ++ (vs.map (fun w => enc fuel e w)).flatten
    | .tcontainer fs, .vseq vs =>
      let pairs := (fs.zip vs).map (fun fv => (isFixedT fv.1, enc fuel fv.1 fv.2))
      encContainerFixedPart pairs (fixedLenFields fs) 0 ++ encContainerVarPart pairs
    | _, _ => []

/-- A value belongs to a type's kind: integers within their width, booleans
for `bool`, sequences of the right length (`= n` for a vector, `≤ limit`
for a list, one per field for a container) with valid members.  Fueled on
the nesting depth of the type. -/
def validF : Nat → SSZT → Value → Bool
  | 0, _, _ => false
  | fuel + 1, t, v =>
    match t, v with
    | .tu8, .vuint n => decide (n < 256)
    | .tu16, .vuint n => decide (n < 65536)
    | .tu32, .vuint n => decide (n < 4294967296)
    | .tu64, .vuint n => decide (n < 18446744073709551616)
    | .tbool, .vbool _ => true
    | .tptr e, w => validF fuel e w
    | .tvector e n, .vseq vs => decide (vs.length = n) && vs.all (fun w => validF fuel e w)
    | .tlist e lim, .vseq vs => decide (vs.length ≤ lim) && vs.all (fun w => validF fuel e w)
    | .tcontainer fs, .vseq vs =>
      decide (vs.length = fs.length) && (fs.zip vs).all (fun fv => validF fuel fv.1 fv.2)
    | _, _ => false

/-- Every variable-size composite inside the value encodes to fewer than
`2^32` bytes, so that the written `uint32` offsets do not truncate.  Fueled
on the nesting depth of the type. -/
def fitsF : Nat → SSZT → Value → Bool
  | 0, _, _ => false
  | fuel + 1, t, v =>
    (if isFixedT t then true else decide ((enc (fuel + 1) t v).length < 4294967296)) &&
      match t, v with
      | .tptr e, w => fitsF fuel e w
      | .tvector e _, .vseq vs => vs.all (fun w => fitsF fuel e w)
      | .tlist e _, .vseq vs => vs.all (fun w => fitsF fuel e w)
      | .tcontainer fs, .vseq vs => (fs.zip vs).all (fun fv => fitsF fuel fv.1 fv.2)
      | _, _ => true

/-- The decoder.  Basic values read their width and check booleans strictly
(modelled from the spec, §4.3); a pointer delegates (`SSZPtr.Decode`); a
fixed-element vector decodes `n` contiguous elements; a variable-element
vector reads the offset table (`ReadVarSeriesOffsets`) and decodes from it;
a fixed-element list derives the count from the remaining bytes — failing
on a zero element size, where Go divides by zero, on a non-multiple, and on
a count above the limit (modelled from the spec, §4.4, `DecodeFixedSlice`
not being among the provided sources) — and a variable-element list goes
through `ReadVarSliceOffsets` with the element's `FixedLen()` as minimum
(`SSZList.Decode`); a container runs the two-pass `decodeVarSize`.  Fueled
on the nesting depth of the type. -/
def decode : Nat → SSZT → Reader → (Except Err Value) × Reader
  | 0, _, r => (.error .fuelOut, r)
  | fuel + 1, t, r =>
    match t with
    | .tu8 =>
      match readBytes r 1 with
      | (.error e, r') => (.error e, r')
      | (.ok bs, r') => (.ok (.vuint (fromLEBytes bs)), r')
    | .tu16 =>
      match readBytes r 2 with
      | (.error e, r') => (.error e, r')
      | (.ok bs, r') => (.ok (.vuint (fromLEBytes bs)), r')
    | .tu32 =>
      match readBytes r 4 with
      | (.error e, r') => (.error e, r')
      | (.ok bs, r') => (.ok (.vuint (fromLEBytes bs)), r')
    | .tu64 =>
      match readBytes r 8 with
      | (.error e, r') => (.error e, r')
      | (.ok bs, r') => (.ok (.vuint (fromLEBytes bs)), r')
    | .tbool =>
      match readBytes r 1 with
      | (.error e, r') => (.error e, r')
      | (.ok bs, r') =>
        let b := fromLEBytes bs
        if b > 1 then (.error .invalidBool, r') else (.ok (.vbool (b == 1)), r')
    | .tptr e => decode fuel e r
    | .tvector e n =>
      if isFixedT e then
        match decodeFixedSeries (decode fuel e) n r with
        | (.error err, r') => (.error err, r')
        | (.ok vs, r') => (.ok (.vseq vs), r')
      else
        match readVarSeriesOffsets n r with
        | (.error err, r') => (.error err, r')
        | (.ok offs, r') =>
          match decodeVarSeriesFromOffsets (decode fuel e) offs r' with
          | (.error err, r'') => (.error err, r'')
          | (.ok vs, r'') => (.ok (.vseq vs), r'')
    | .tlist e lim =>
      let bytesLen := r.max - r.i
      if isFixedT e then
        if fixedLenT e = 0 then (.error .divisionByZero, r)
        else if bytesLen % fixedLenT e ≠ 0 then (.error .lengthMismatch, r)
        else if bytesLen / fixedLenT e > lim then (.error .limitExceeded, r)
        else
          match decodeFixedSeries (decode fuel e) (bytesLen / fixedLenT e) r with
          | (.error err, r') => (.error err, r')
          | (.ok vs, r') => (.ok (.vseq vs), r')
      else
        match readVarSliceOffsets (fixedLenT e) bytesLen lim r with
        | (.error err, r') => (.error err, r')
        | (.ok offs, r') =>
          match decodeVarSeriesFromOffsets (decode fuel e) offs r' with
          | (.error err, r'') => (.error err, r'')
          | (.ok vs, r'') => (.ok (.vseq vs), r'')
    | .tcontainer fs =>
      match
        containerDecode (fs.map (fun f => ⟨isFixedT f, fixedLenT f, decode fuel f⟩))
          (fixedLenFields fs) r with
      | (.error err, r') => (.error err, r')
      | (.ok vs, r') => (.ok (.vseq vs), r')

/-- Top-level encoding of a value of kind `t` (adequate fuel). -/
def encTop (t : SSZT) (v : Value) : Bytes := enc (depthT t) t v

/-- Top-level decoding of a byte string as a value of kind `t`: a fresh
reader scoped to exactly the input's length (adequate fuel). -/
def decodeTop (t : SSZT) (bs : Bytes) : (Except Err Value) × Reader :=
  decode (depthT t) t ⟨bs, 0, bs.length⟩

/-- `v` is a value of `t`'s kind (adequate fuel). -/
def validT (t : SSZT) (v : Value) : Bool := validF (depthT t) t v

/-- All variable-size composites of `v` fit the `uint32` offset space
(adequate fuel). -/
def fitsT (t : SSZT) (v : Value) : Bool := fitsF (depthT t) t v

/-- `SSZPtr.HashTreeRoot` as written in the source (`part_000`): it
dereferences the value pointer and then calls **itself** (`v.HashTreeRoot`)
on the result instead of delegating to `v.elemSSZ.HashTreeRoot`.  The heap
is modelled as a dereference function on abstract addresses; `inner` is the
inner handler's hash routine, which the body never invokes; `fuel` bounds
the unbounded self-recursion, `none` meaning no result was produced. -/
def sszPtrHashTreeRoot (inner : Nat → Bytes) (heap : Nat → Nat) :
    Nat → Nat → Option Bytes
  | 0, _ => none
  | fuel + 1, p => sszPtrHashTreeRoot inner heap fuel (heap p)

/-- `SSZPtr.Encode`: dereference the value pointer once, then delegate to
the inner handler (`part_000`, lines 36–39). -/
def sszPtrEncode (encInner : Nat → Bytes) (heap : Nat → Nat) (p : Nat) : Bytes :=
  encInner (heap p)

/-- The zero-hash table: `Z[0] = zeros(32)`, `Z[k+1] = hash(Z[k] || Z[k])`.
Modelled from the spec (§4.9): the `merkle` package is not among the
provided sources. -/
def zeroHashes (hashF : Bytes → Bytes → Bytes) : Nat → Bytes
  | 0 => List.replicate 32 0
  | k + 1 => hashF (zeroHashes hashF k) (zeroHashes hashF k)

/-- A node of the Merkle tree at the given height over the leaf function:
height-0 nodes are `leaf j` for `j < n` and the zero chunk beyond `n`;
higher nodes hash their two children.  Modelled from the spec (§4.9). -/
def merkNode (hashF : Bytes → Bytes → Bytes) (leaf : Nat → Bytes) (n : Nat) :
    Nat → Nat → Bytes
  | 0, j => if j < n then leaf j else List.replicate 32 0
  | k + 1, j => hashF (merkNode hashF leaf n k (2 * j)) (merkNode hashF leaf n k (2 * j + 1))

/-- `merkle.Merkleize(h, leafCount, padCount, leaf)`: the root of the tree of
depth `ceil(log2 padCount)` over the first `leafCount` leaves, zero-padded;
the zero-hash root when `padCount = 0`.  Modelled from the spec (§4.9). -/
def merkleize (hashF : Bytes → Bytes → Bytes) (leafCount padCount : Nat)
    (leaf : Nat → Bytes) : Bytes :=
  if padCount = 0 then List.replicate 32 0
  else merkNode hashF leaf leafCount (Nat.clog 2 padCount) 0

/-- A leaf function over a list of roots (out-of-range reads, which the
Merkleizer never performs below the leaf count, give the zero chunk). -/
def leafOfList (rs : List Bytes) : Nat → Bytes :=
  fun i => rs.getD i (List.replicate 32 0)

/-- Right-pad a serialized basic value with zeros into a 32-byte chunk. -/
def pad32 (bs : Bytes) : Bytes := bs ++ List.replicate (32 - bs.length) 0

/-- `HashTreeRoot`, type-directed.  Basics hash their serialization
right-padded to 32 bytes (modelled from the spec, §4.3); series Merkleize
their elements' roots (`ssz_vector.go` / `ssz_list.go`); a container
Merkleizes its fields' roots with `leafCount = padCount = field count`
(`SSZContainer.HashTreeRoot`).  The pointer case delegates to the inner
handler — the intended behavior; what the source actually does is settled by
`sszPtrHashTreeRoot`.  Fueled on the nesting depth of the type. -/
def htrF : Nat → (Bytes → Bytes → Bytes) → SSZT → Value → Bytes
  | 0, _, _, _ => List.replicate 32 0
  | fuel + 1, hashF, t, v =>
    match t, v with
    | .tu8, .vuint n => pad32 (leBytes 1 n)
    | .tu16, .vuint n => pad32 (leBytes 2 n)
    | .tu32, .vuint n => pad32 (leBytes 4 n)
    | .tu64, .vuint n => pad32 (leBytes 8 n)
    | .tbool, .vbool b => pad32 [if b then 1 else 0]
    | .tptr e, w => htrF fuel hashF e w
    | .tvector e n, .vseq vs =>
      merkleize hashF n n (leafOfList (vs.map (fun w => htrF fuel hashF e w)))
    | .tlist e _, .vseq vs =>
      merkleize hashF vs.length vs.length (leafOfList (vs.map (fun w => htrF fuel hashF e w)))
    | .tcontainer fs, .vseq vs =>
      merkleize hashF fs.length fs.length
        (leafOfList ((fs.zip vs).map (fun fv => htrF fuel hashF fv.1 fv.2)))
    | _, _ => List.replicate 32 0

/-- `SSZContainer.SigningRoot`: the fields' roots as leaves, with the leaf
count reduced by one when there is at least one field, Merkleized with
`leafCount = padCount` (`part_001`, lines 322–334). -/
def signingRootF (fuel : Nat) (hashF : Bytes → Bytes → Bytes) (fs : List SSZT)
    (vs : List Value) : Bytes :=
  let leaf := leafOfList ((fs.zip vs).map (fun fv => htrF fuel hashF fv.1 fv.2))
  let leafCount := fs.length
  let leafCount' := if leafCount ≠ 0 then leafCount - 1 else leafCount
  merkleize hashF leafCount' leafCount' leaf

/-- What `NewSSZContainer` sees of a produced field's handler: the five
derived scalars it consults. -/
structure FieldMeta where
  isFixed : Bool
  fixedLen : Nat
  minLen : Nat
  maxLen : Nat
  fuzzMinLen : Nat
  fuzzMaxLen : Nat
deriving DecidableEq, Repr

/-- The derived scalars of a constructed container. -/
structure ContainerMeta where
  isFixedLen : Bool
  fixedLen : Nat
  minLen : Nat
  maxLen : Nat
  offsetCount : Nat
  fuzzMinLen : Nat
  fuzzMaxLen : Nat
deriving DecidableEq, Repr

/-- The field loop of `NewSSZContainer` (lines 113–130): a fixed field whose
`FixedLen` differs from its `MinLen` or `MaxLen` is rejected; a fixed field
contributes `fixedLen` to all three lengths; a variable field contributes
`BYTES_PER_LENGTH_OFFSET` to the fixed length and `4 + MinLen/MaxLen` to the
bounds and bumps `offsetCount`; fuzz bounds accumulate for every field. -/
def newSSZContainerLoop : List FieldMeta → ContainerMeta → Except Err ContainerMeta
  | [], acc => .ok acc
  | f :: rest, acc =>
    if f.isFixed then
      if f.fixedLen ≠ f.minLen ∨ f.fixedLen ≠ f.maxLen then .error .malformedFixedField
      else
        newSSZContainerLoop rest
          { acc with
            fixedLen := acc.fixedLen + f.fixedLen
            minLen := acc.minLen + f.fixedLen
            maxLen := acc.maxLen + f.fixedLen
            fuzzMinLen := acc.fuzzMinLen + f.fuzzMinLen
            fuzzMaxLen := acc.fuzzMaxLen + f.fuzzMaxLen }
    else
      newSSZContainerLoop rest
        { acc with
          fixedLen := acc.fixedLen + BYTES_PER_LENGTH_OFFSET
          minLen := acc.minLen + BYTES_PER_LENGTH_OFFSET + f.minLen
          maxLen := acc.maxLen + BYTES_PER_LENGTH_OFFSET + f.maxLen
          offsetCount := acc.offsetCount + 1
          fuzzMinLen := acc.fuzzMinLen + f.fuzzMinLen
          fuzzMaxLen := acc.fuzzMaxLen + f.fuzzMaxLen }

/-- `NewSSZContainer` on the produced field list (the reflection walk that
produces the fields is the registration adapter, out of the embedded core):
run the accumulation loop from zero and finally set
`isFixedLen := offsetCount == 0` (line 131). -/
def newSSZContainer (fields : List FieldMeta) : Except Err ContainerMeta :=
  match newSSZContainerLoop fields ⟨false, 0, 0, 0, 0, 0, 0⟩ with
  | .error e => .error e
  | .ok acc => .ok { acc with isFixedLen := acc.offsetCount == 0 }

/-- A Go slice header: length, capacity and the contents pointer, the latter
modelled as the contents themselves (`none` is the nil pointer). -/
structure SliceHeader where
  len : Nat
  cap : Nat
  data : Option (List Nat)
deriving DecidableEq, Repr

/-- `AllocateSliceSpaceAndBind`: length zero binds the empty header (nil
data pointer); otherwise fresh zeroed storage of the requested length is
allocated and the header rebound to it with `len = cap = length`. -/
def AllocateSliceSpaceAndBind (length : Nat) : SliceHeader :=
  if length = 0 then ⟨0, 0, none⟩
  else ⟨length, length, some (List.replicate length 0)⟩

/-- `SliceAllocationFn.MutateLenOrAllocNew`: if the existing capacity is
insufficient, allocate through the allocation function; otherwise mutate
only the length field and keep the storage. -/
def MutateLenOrAllocNew (allocFn : Nat → SliceHeader) (h : SliceHeader)
    (length : Nat) : SliceHeader :=
  if h.cap < length then allocFn length
  else { h with len := length }

/-- Some adjacent pair of the list is decreasing. -/
def hasDecreasingAdjacent : List Nat → Bool
  | [] => false
  | [_] => false
  | a :: b :: rest => decide (b < a) || hasDecreasingAdjacent (b :: rest)

/-- The result is an error. -/
def isErr {α : Type} : Except Err α → Bool
  | .error _ => true
  | .ok _ => false

/-- The offsets a variable series writes (`EncodeVarSeries`'s
`prevOffset + prevSize` chain, started at `base = 4 * length`): element `k`
sits at `base` plus the sizes of the elements before it. -/
def seriesOffsets (szFn : Value → Nat) (vs : List Value) (base : Nat) : List Nat :=
  match vs with
  | [] => []
  | v :: rest => base :: seriesOffsets szFn rest (base + szFn v)

/-- The offsets a container writes for its variable fields: `fixedLen` plus
the bytes already staged on the forward queue. -/
def containerOffsets (pairs : List (Bool × Bytes)) (fixedLen fwdLen : Nat) : List Nat :=
  match pairs with
  | [] => []
  | (true, _) :: rest => containerOffsets rest fixedLen fwdLen
  | (false, bs) :: rest =>
    (fixedLen + fwdLen) :: containerOffsets rest fixedLen (fwdLen + bs.length)

/-! ## Byte-level lemmas -/

theorem leBytes_length (w x : Nat) : (leBytes w x).length = w := by
  induction w generalizing x with
  | zero => rfl
  | succ w ih => simp [leBytes, ih]

theorem fromLEBytes_leBytes (w x : Nat) (h : x < 256 ^ w) :
    fromLEBytes (leBytes w x) = x := by
  induction w generalizing x with
  | zero =>
    simp only [Nat.pow_zero, Nat.lt_one_iff] at h
    simp [h, leBytes, fromLEBytes]
  | succ w ih =>
    have hdiv : x / 256 < 256 ^ w := by
      rw [Nat.div_lt_iff_lt_mul (by norm_num)]
      calc x < 256 ^ (w + 1) := h
        _ = 256 ^ w * 256 := by rw [Nat.pow_succ]
    simp only [leBytes, fromLEBytes, ih (x / 256) hdiv]
    omega

/-! ## Reader lemmas -/

theorem readBytes_ok_of_prefix (bs rest : Bytes) (i mx : Nat)
    (h : i + bs.length ≤ mx) :
    readBytes ⟨bs ++ rest, i, mx⟩ bs.length = (.ok bs, ⟨rest, i + bs.length, mx⟩) := by
  unfold readBytes
  rw [if_neg (by simp; omega), if_neg (by simp)]
  simp

theorem readOffset_ok (o : Nat) (rest : Bytes) (i mx : Nat)
    (ho : o < 4294967296) (h : i + 4 ≤ mx) :
    readOffset ⟨leBytes 4 o ++ rest, i, mx⟩ = (.ok o, ⟨rest, i + 4, mx⟩) := by
  have hl : (leBytes 4 o).length = 4 := leBytes_length 4 o
  have hrb := readBytes_ok_of_prefix (leBytes 4 o) rest i mx (by rw [hl]; omega)
  rw [hl] at hrb
  unfold readOffset
  rw [hrb]
  simp [fromLEBytes_leBytes 4 o
    (by have h4 : (256 : Nat) ^ 4 = 4294967296 := by norm_num
        omega)]

theorem readBytes_ok_inv (r r' : Reader) (n : Nat) (bs : Bytes)
    (h : readBytes r n = (.ok bs, r')) :
    r'.i = r.i + n ∧ r'.max = r.max ∧ bs = r.stream.take n ∧ r'.stream = r.stream.drop n := by
  unfold readBytes at h
  split at h
  · exact absurd h (by simp)
  · split at h
    · exact absurd h (by simp)
    · injection h with h1 h2
      injection h1 with h1
      subst h2
      subst h1
      exact ⟨rfl, rfl, rfl, rfl⟩

theorem readOffset_ok_inv (r r' : Reader) (v : Nat)
    (h : readOffset r = (.ok v, r')) :
    r'.i = r.i + 4 ∧ r'.max = r.max ∧ v = fromLEBytes (r.stream.take 4) := by
  unfold readOffset at h
  rcases hrb : readBytes r 4 with ⟨res, rb⟩
  rw [hrb] at h
  cases res with
  | error e => simp at h
  | ok bs =>
    simp only [Prod.mk.injEq, Except.ok.injEq] at h
    obtain ⟨hv, hr⟩ := h
    obtain ⟨h1, h2, h3, _⟩ := readBytes_ok_inv r rb 4 bs hrb
    subst hr hv h3
    exact ⟨h1, h2, rfl⟩

/-! ## C10: a non-empty variable-element list must start at index 0 -/

/-- **C10.** For every decode of a non-empty list of variable-size elements
(`bytesLen ≠ 0`), `ReadVarSliceOffsets` fails unless the reader's index
within the list's scope is exactly 0 when the offset table is about to be
read. -/
theorem C10_var_slice_requires_fresh_scope (minElemLen bytesLen limit : Nat)
    (r : Reader) (hb : bytesLen ≠ 0) (hi : r.i ≠ 0) :
    readVarSliceOffsets minElemLen bytesLen limit r = (.error .badStartIndex, r) := by
  unfold readVarSliceOffsets
  rw [if_neg hb, if_pos hi]

/-- Witness for C10 at a concrete reader positioned at index 2. -/
theorem C10_var_slice_requires_fresh_scope_witness :
    readVarSliceOffsets 3 4 10 ⟨[1, 2, 3, 4], 2, 6⟩ = (.error .badStartIndex, ⟨[1, 2, 3, 4], 2, 6⟩) :=
  C10_var_slice_requires_fresh_scope 3 4 10 ⟨[1, 2, 3, 4], 2, 6⟩ (by decide) (by decide)

/-! ## C9: scoped child reads do not leak state into the parent on failure -/

/-- **C9.** For every scoped child read during decode (`decodeOffsetElem`,
built on `Scope` / `UpdateIndexFromScoped`): if the operation inside the
child scope fails — whatever the child decoder did — the parent reader's
index is unchanged; and on success the parent's index is advanced by exactly
the child's consumed byte count. -/
theorem C9_scoped_child_no_leak (decFn : DecFn) (expectedOffset scopeSize : Nat)
    (r : Reader) :
    (isErr (decodeOffsetElem decFn expectedOffset scopeSize r).1 = true →
      ((decodeOffsetElem decFn expectedOffset scopeSize r).2).i = r.i)
    ∧ (∀ v child', expectedOffset = r.i → scopeSize ≤ r.max - r.i →
        decFn ⟨r.stream, 0, scopeSize⟩ = (.ok v, child') →
        decodeOffsetElem decFn expectedOffset scopeSize r
          = (.ok v, ⟨child'.stream, r.i + child'.i, r.max⟩)) := by
  constructor
  · intro herr
    by_cases h1 : expectedOffset ≠ r.i
    · simp [decodeOffsetElem, h1]
    · by_cases h2 : r.max - r.i < scopeSize
      · simp [decodeOffsetElem, scopeReader, h1, h2]
      · rcases hd : decFn ⟨r.stream, 0, scopeSize⟩ with ⟨res, child'⟩
        cases res with
        | error e => simp [decodeOffsetElem, scopeReader, h1, h2, hd]
        | ok v =>
          exfalso
          simp [decodeOffsetElem, scopeReader, h1, h2, hd, isErr] at herr
  · intro v child' h1 h2 h3
    have h2' : ¬ (r.max - r.i < scopeSize) := by omega
    simp [decodeOffsetElem, scopeReader, h1, h2', h3, updateIndexFromScoped]

/-- Witness for C9: a child decoder that fails after consuming bytes leaves
the parent's index at its original value 1. -/
theorem C9_scoped_child_no_leak_witness :
    ((decodeOffsetElem (fun rd => (.error .shortRead, ⟨[], rd.i + 2, rd.max⟩)) 1 2
        ⟨[7, 7, 7], 1, 4⟩).2).i = 1 :=
  (C9_scoped_child_no_leak (fun rd => (.error .shortRead, ⟨[], rd.i + 2, rd.max⟩)) 1 2
      ⟨[7, 7, 7], 1, 4⟩).1 (by rfl)

/-! ## C5: offset monotonicity and boundary checking -/

theorem decodeVarSeriesFromOffsets_decreasing_fails (decFn : DecFn) :
    ∀ (offsets : List Nat) (r : Reader), hasDecreasingAdjacent offsets = true →
      isErr (decodeVarSeriesFromOffsets decFn offsets r).1 = true := by
  intro offsets
  induction offsets with
  | nil => intro r h; simp [hasDecreasingAdjacent] at h
  | cons a rest ih =>
    intro r h
    cases rest with
    | nil => simp [hasDecreasingAdjacent] at h
    | cons b rest' =>
      unfold decodeVarSeriesFromOffsets
      by_cases h1 : r.i ≠ a
      · simp [h1, isErr]
      · simp only [h1, if_false]
        simp only [not_not] at h1
        simp only [hasDecreasingAdjacent, Bool.or_eq_true, decide_eq_true_eq] at h
        by_cases h2 : b ≥ r.i
        · have hrec : hasDecreasingAdjacent (b :: rest') = true := by
            rcases h with h | h
            · omega
            · exact h
          simp only [ge_iff_le, h2, if_true]
          rcases hsc : scopeReader r (b - r.i) with e | child
          · simp [isErr]
          · rcases hd : decFn child with ⟨res, child'⟩
            cases res with
            | error e => simp [hd, isErr]
            | ok v =>
              simp only [hd]
              rcases hr2 : decodeVarSeriesFromOffsets decFn (b :: rest')
                  (updateIndexFromScoped r child') with ⟨res2, r''⟩
              have := ih (updateIndexFromScoped r child') hrec
              rw [hr2] at this
              cases res2 with
              | error e => simp [isErr]
              | ok vs => simp [isErr] at this
        · rw [if_neg (show ¬ (r.i ≤ b) by omega)]
          simp [isErr]

/-! ## C4: validation of the offset table of a variable-element list -/

theorem readOffsets_ok_length : ∀ (k : Nat) (r : Reader) (os : List Nat) (r' : Reader),
    readOffsets k r = (.ok os, r') → os.length = k := by
  intro k
  induction k with
  | zero =>
    intro r os r' h
    unfold readOffsets at h
    injection h with h1 h2
    injection h1 with h1
    subst h1
    rfl
  | succ k ih =>
    intro r os r' h
    unfold readOffsets at h
    split at h
    · exact absurd h (by simp)
    · split at h
      · exact absurd h (by simp)
      · rename_i o r1 heq os1 r2 heq2
        injection h with h1 h2
        injection h1 with h1
        subst h1
        simp [ih _ _ _ heq2]

/-- **C4.** For every decode of a list of variable-size elements (non-empty
scope): letting `first_offset` be the little-endian `uint32` at the head of
the input, the decode fails if `first_offset` is not a multiple of 4, if it
exceeds the byte length of the scope, if `N = first_offset / 4` exceeds the
declared limit, or if `N` times the element's minimum length exceeds the
scope's byte budget (`Max()`); and on success the element count is derived
as `N = first_offset / 4` (the offset table has exactly `N` entries). -/
theorem C4_var_slice_length_derivation_and_checks (minElemLen bytesLen limit : Nat)
    (r : Reader) (hb : bytesLen ≠ 0) :
    (fromLEBytes (r.stream.take 4) % 4 ≠ 0 ∨ fromLEBytes (r.stream.take 4) > bytesLen
        ∨ fromLEBytes (r.stream.take 4) / 4 > limit
        ∨ minElemLen * (fromLEBytes (r.stream.take 4) / 4) > r.max →
      isErr (readVarSliceOffsets minElemLen bytesLen limit r).1 = true)
    ∧ (∀ offs r', readVarSliceOffsets minElemLen bytesLen limit r = (.ok offs, r') →
      offs.length = fromLEBytes (r.stream.take 4) / 4) := by
  unfold readVarSliceOffsets
  simp only [BYTES_PER_LENGTH_OFFSET]
  rw [if_neg hb]
  by_cases hi : r.i ≠ 0
  · rw [if_pos hi]
    exact ⟨fun _ => rfl, fun offs r' h => absurd h (by simp)⟩
  · rw [if_neg hi]
    split
    next e r1 heq =>
      exact ⟨fun _ => rfl, fun offs r' h => absurd h (by simp)⟩
    next v r1 heq =>
      obtain ⟨hi1, hmax1, hv⟩ := readOffset_ok_inv r r1 v heq
      rw [← hv]
      by_cases c1 : v > bytesLen ∨ v % 4 ≠ 0
      · rw [if_pos c1]
        exact ⟨fun _ => rfl, fun offs r' h => absurd h (by simp)⟩
      · rw [if_neg c1]
        by_cases c2 : v / 4 > limit
        · rw [if_pos c2]
          exact ⟨fun _ => rfl, fun offs r' h => absurd h (by simp)⟩
        · rw [if_neg c2]
          by_cases c3 : minElemLen * (v / 4) > r1.max
          · rw [if_pos c3]
            exact ⟨fun _ => rfl, fun offs r' h => absurd h (by simp)⟩
          · rw [if_neg c3]
            push_neg at c1
            constructor
            · intro hdisj
              exfalso
              rw [hmax1] at c3
              rcases hdisj with h | h | h | h <;> omega
            · intro offs r' h
              split at h
              · exact absurd h (by simp)
              · rename_i os r2 hos
                by_cases hfin : r2.i ≠ 4 * (v / 4)
                · rw [if_pos hfin] at h
                  exact absurd h (by simp)
                · rw [if_neg hfin] at h
                  injection h with h1 h2
                  injection h1 with h1
                  subst h1
                  have hlen := readOffsets_ok_length (v / 4 - 1) r1 os r2 hos
                  rcases hz : v / 4 with _ | k
                  · exfalso
                    rw [hz] at hos
                    unfold readOffsets at hos
                    injection hos with hos1 hos2
                    subst hos2
                    rw [hz] at hfin
                    omega
                  · simp only [List.length_cons, hlen, hz]
                    omega

/-- Witness for C4: an over-limit first offset fails on `[8,0,0,0]` with
`limit = 1`, and a well-formed single-element table `[4,0,0,0,9]` yields
exactly `8 / 4 = 2`, resp. `4 / 4 = 1`, derived elements. -/
theorem C4_var_slice_length_derivation_and_checks_witness :
    isErr (readVarSliceOffsets 0 8 1 ⟨[8, 0, 0, 0, 7, 7, 7, 7], 0, 8⟩).1 = true
    ∧ ∀ offs r', readVarSliceOffsets 0 5 3 ⟨[4, 0, 0, 0, 9], 0, 5⟩ = (.ok offs, r') →
        offs.length = 1 :=
  ⟨(C4_var_slice_length_derivation_and_checks 0 8 1 ⟨[8, 0, 0, 0, 7, 7, 7, 7], 0, 8⟩
      (by decide)).1 (by right; right; left; decide),
    fun offs r' h =>
      (C4_var_slice_length_derivation_and_checks 0 5 3 ⟨[4, 0, 0, 0, 9], 0, 5⟩
        (by decide)).2 offs r' h⟩

/-! ## C7: the container constructor's fixed-length invariant -/

theorem newSSZContainerLoop_ok : ∀ (fields : List FieldMeta) (acc out : ContainerMeta),
    newSSZContainerLoop fields acc = .ok out →
    (∀ f ∈ fields, f.isFixed = true → f.fixedLen = f.minLen ∧ f.fixedLen = f.maxLen)
    ∧ out.fixedLen = acc.fixedLen
        + (fields.map (fun f => if f.isFixed then f.fixedLen else 4)).sum
    ∧ out.minLen = acc.minLen
        + (fields.map (fun f => if f.isFixed then f.fixedLen else 4 + f.minLen)).sum
    ∧ out.maxLen = acc.maxLen
        + (fields.map (fun f => if f.isFixed then f.fixedLen else 4 + f.maxLen)).sum
    ∧ out.offsetCount = acc.offsetCount + (fields.filter (fun f => !f.isFixed)).length
    ∧ out.isFixedLen = acc.isFixedLen := by
  intro fields
  induction fields with
  | nil =>
    intro acc out h
    unfold newSSZContainerLoop at h
    injection h with h1
    subst h1
    simp
  | cons f rest ih =>
    intro acc out h
    unfold newSSZContainerLoop at h
    by_cases hf : f.isFixed = true
    · rw [if_pos hf] at h
      by_cases hbad : f.fixedLen ≠ f.minLen ∨ f.fixedLen ≠ f.maxLen
      · rw [if_pos hbad] at h
        exact absurd h (by simp)
      · rw [if_neg hbad] at h
        push_neg at hbad
        obtain ⟨hrec, h2, h3, h4, h5, h6⟩ := ih _ out h
        dsimp only at h2 h3 h4 h5 h6
        refine ⟨?_, ?_, ?_, ?_, ?_, h6⟩
        · intro g hg hgf
          rcases List.mem_cons.mp hg with heq | hg
          · subst heq; exact hbad
          · exact hrec g hg hgf
        · rw [List.map_cons, List.sum_cons, if_pos hf]; omega
        · rw [List.map_cons, List.sum_cons, if_pos hf]; omega
        · rw [List.map_cons, List.sum_cons, if_pos hf]; omega
        · rw [List.filter_cons]
          simp only [hf, Bool.not_true, Bool.false_eq_true, if_false]
          omega
    · rw [if_neg hf] at h
      obtain ⟨hrec, h2, h3, h4, h5, h6⟩ := ih _ out h
      dsimp only at h2 h3 h4 h5 h6
      simp only [BYTES_PER_LENGTH_OFFSET] at h2 h3 h4
      refine ⟨?_, ?_, ?_, ?_, ?_, h6⟩
      · intro g hg hgf
        rcases List.mem_cons.mp hg with heq | hg
        · subst heq; exact absurd hgf hf
        · exact hrec g hg hgf
      · rw [List.map_cons, List.sum_cons, if_neg hf]; omega
      · rw [List.map_cons, List.sum_cons, if_neg hf]; omega
      · rw [List.map_cons, List.sum_cons, if_neg hf]; omega
      · rw [List.filter_cons]
        have hf' : (!f.isFixed) = true := by
          cases hff : f.isFixed
          · rfl
          · exact absurd hff hf
        simp only [hf', if_true, List.length_cons]
        omega

theorem newSSZContainerLoop_rejects : ∀ (fields : List FieldMeta) (acc : ContainerMeta),
    (∃ f ∈ fields, f.isFixed = true ∧ (f.fixedLen ≠ f.minLen ∨ f.fixedLen ≠ f.maxLen)) →
    isErr (newSSZContainerLoop fields acc) = true := by
  intro fields
  induction fields with
  | nil =>
    intro acc h
    simp at h
  | cons f rest ih =>
    intro acc h
    unfold newSSZContainerLoop
    rcases h with ⟨g, hg, hgfix, hgbad⟩
    rcases List.mem_cons.mp hg with heq | hg
    · subst heq
      rw [if_pos hgfix, if_pos hgbad]
      rfl
    · by_cases hf : f.isFixed = true
      · rw [if_pos hf]
        by_cases hbad : f.fixedLen ≠ f.minLen ∨ f.fixedLen ≠ f.maxLen
        · rw [if_pos hbad]; rfl
        · rw [if_neg hbad]
          exact ih _ ⟨g, hg, hgfix, hgbad⟩
      · rw [if_neg hf]
        exact ih _ ⟨g, hg, hgfix, hgbad⟩

/-- **C7.** For every handler metadata list given to the container
constructor: the constructor rejects any fixed-length child whose
`fixed_len` differs from its `min_len` or `max_len` (so every child of a
successfully constructed container that reports itself fixed satisfies
`fixed_len = min_len = max_len`); on success the container's `min_len` is
`Σ (fixed ? fixed_len : 4 + child.min_len)` and `max_len` likewise; and a
container that reports itself fixed satisfies the same invariant
`fixed_len = min_len = max_len` itself. -/
theorem C7_container_fixed_invariant (fields : List FieldMeta) :
    (∀ meta, newSSZContainer fields = .ok meta →
      (∀ f ∈ fields, f.isFixed = true → f.fixedLen = f.minLen ∧ f.fixedLen = f.maxLen)
      ∧ meta.fixedLen = (fields.map (fun f => if f.isFixed then f.fixedLen else 4)).sum
      ∧ meta.minLen = (fields.map (fun f => if f.isFixed then f.fixedLen else 4 + f.minLen)).sum
      ∧ meta.maxLen = (fields.map (fun f => if f.isFixed then f.fixedLen else 4 + f.maxLen)).sum
      ∧ (meta.isFixedLen = true → meta.fixedLen = meta.minLen ∧ meta.fixedLen = meta.maxLen))
    ∧ ((∃ f ∈ fields, f.isFixed = true ∧ (f.fixedLen ≠ f.minLen ∨ f.fixedLen ≠ f.maxLen)) →
      isErr (newSSZContainer fields) = true) := by
  constructor
  · intro meta h
    unfold newSSZContainer at h
    rcases hloop : newSSZContainerLoop fields ⟨false, 0, 0, 0, 0, 0, 0⟩ with e | acc
    · rw [hloop] at h; exact absurd h (by simp)
    · rw [hloop] at h
      injection h with h1
      obtain ⟨hrec, h2, h3, h4, h5, _⟩ := newSSZContainerLoop_ok fields _ acc hloop
      simp only [Nat.zero_add] at h2 h3 h4 h5
      have hmeta2 : meta.fixedLen = acc.fixedLen := by rw [← h1]
      have hmeta3 : meta.minLen = acc.minLen := by rw [← h1]
      have hmeta4 : meta.maxLen = acc.maxLen := by rw [← h1]
      have hmetaf : meta.isFixedLen = (acc.offsetCount == 0) := by rw [← h1]
      refine ⟨hrec, by rw [hmeta2, h2], by rw [hmeta3, h3], by rw [hmeta4, h4], ?_⟩
      intro hfix
      rw [hmetaf, beq_iff_eq] at hfix
      rw [hfix] at h5
      have hall : ∀ f ∈ fields, f.isFixed = true := by
        intro f hf
        have hnil : fields.filter (fun f => !f.isFixed) = [] :=
          List.eq_nil_of_length_eq_zero h5.symm
        by_contra hc
        have : f ∈ fields.filter (fun f => !f.isFixed) := by
          rw [List.mem_filter]
          exact ⟨hf, by simp [Bool.not_eq_true] at hc ⊢; exact hc⟩
        rw [hnil] at this
        simp at this
      constructor
      · rw [hmeta2, hmeta3, h2, h3]
        congr 1
        apply List.map_congr_left
        intro f hf
        rw [if_pos (hall f hf), if_pos (hall f hf)]
      · rw [hmeta2, hmeta4, h2, h4]
        congr 1
        apply List.map_congr_left
        intro f hf
        rw [if_pos (hall f hf), if_pos (hall f hf)]
  · intro h
    unfold newSSZContainer
    rcases hloop : newSSZContainerLoop fields ⟨false, 0, 0, 0, 0, 0, 0⟩ with e | acc
    · rfl
    · have := newSSZContainerLoop_rejects fields ⟨false, 0, 0, 0, 0, 0, 0⟩ h
      rw [hloop] at this
      exact absurd this (by simp [isErr])

/-- Witness for C7 at concrete field lists: a well-formed pair (one fixed
`uint16`-like field, one variable field) constructs with the stated bounds,
and a malformed fixed field (`fixed_len 2`, `min_len 3`) is rejected. -/
theorem C7_container_fixed_invariant_witness :
    (∀ f ∈ [FieldMeta.mk true 2 2 2 2 2, FieldMeta.mk false 0 8 40 1 1], f.isFixed = true →
      f.fixedLen = f.minLen ∧ f.fixedLen = f.maxLen)
    ∧ isErr (newSSZContainer [FieldMeta.mk true 2 3 2 0 0]) = true := by
  constructor
  · have hm : newSSZContainer [FieldMeta.mk true 2 2 2 2 2, FieldMeta.mk false 0 8 40 1 1]
        = .ok ⟨false, 6, 14, 46, 1, 3, 3⟩ := by rfl
    exact ((C7_container_fixed_invariant
      [FieldMeta.mk true 2 2 2 2 2, FieldMeta.mk false 0 8 40 1 1]).1 _ hm).1
  · exact (C7_container_fixed_invariant [FieldMeta.mk true 2 3 2 0 0]).2
      ⟨FieldMeta.mk true 2 3 2 0 0, by simp, rfl, by decide⟩

/-! ## C8: the list allocation policy -/

/-- **C8 counterexample.**  The claim also asserts that a decode of required
length 0 leaves an empty header (`len = cap = 0`, nil data), but
`MutateLenOrAllocNew` with length 0 always takes the capacity-reuse branch
(`cap ≥ 0`), merely setting `len := 0` and keeping capacity and storage: on
the concrete header `⟨3, 5, some [9,9,9,9,9]⟩` the result keeps `cap = 5`
and the non-nil data pointer. -/
theorem C8_zero_length_keeps_storage :
    MutateLenOrAllocNew AllocateSliceSpaceAndBind ⟨3, 5, some [9, 9, 9, 9, 9]⟩ 0
      = ⟨0, 5, some [9, 9, 9, 9, 9]⟩
    ∧ (⟨0, 5, some [9, 9, 9, 9, 9]⟩ : SliceHeader) ≠ ⟨0, 0, none⟩ := by
  decide

/-- **C8 (amended).** For every decode into a growable sequence of required
length `L` through `MutateLenOrAllocNew`: if the existing capacity is at
least `L`, only the length field is mutated and the storage is reused;
otherwise the allocation function runs — fresh zero-initialized storage of
length `L` is allocated and the header rebound to it; and the empty header
(`len = cap = 0`, nil data) arises from `AllocateSliceSpaceAndBind` with
length 0 (the direct allocation path), not from the capacity-reuse branch. -/
theorem C8_alloc_policy (h : SliceHeader) (L : Nat) :
    (L ≤ h.cap → MutateLenOrAllocNew AllocateSliceSpaceAndBind h L = ⟨L, h.cap, h.data⟩)
    ∧ (h.cap < L →
      MutateLenOrAllocNew AllocateSliceSpaceAndBind h L = ⟨L, L, some (List.replicate L 0)⟩)
    ∧ AllocateSliceSpaceAndBind 0 = ⟨0, 0, none⟩ := by
  refine ⟨?_, ?_, rfl⟩
  · intro hc
    unfold MutateLenOrAllocNew
    rw [if_neg (by omega)]
  · intro hc
    unfold MutateLenOrAllocNew AllocateSliceSpaceAndBind
    rw [if_pos hc, if_neg (by omega)]

/-- Witness for C8 (amended) at a concrete header: capacity 4 reused for
length 2; capacity 1 reallocated for length 3 with zeroed storage. -/
theorem C8_alloc_policy_witness :
    MutateLenOrAllocNew AllocateSliceSpaceAndBind ⟨1, 4, some [6, 6, 6, 6]⟩ 2
      = ⟨2, 4, some [6, 6, 6, 6]⟩
    ∧ MutateLenOrAllocNew AllocateSliceSpaceAndBind ⟨1, 1, some [6]⟩ 3
      = ⟨3, 3, some [0, 0, 0]⟩ :=
  ⟨(C8_alloc_policy ⟨1, 4, some [6, 6, 6, 6]⟩ 2).1 (by decide),
    by rw [(C8_alloc_policy ⟨1, 1, some [6]⟩ 3).2.1 (by decide)]; rfl⟩

/-! ## C2: the pointer handler -/

/-- **C2 (the hash routine as written).**  `SSZPtr.HashTreeRoot` dereferences
and then re-invokes **itself**, never the inner handler: for every recursion
bound, every heap and every starting pointer, no result is produced — the
self-recursion never terminates, contradicting the claim that it returns the
inner handler's root of the dereferenced pointer (`SSZPtr.Encode` and
`SSZPtr.Decode`, by contrast, do dereference once and delegate). -/
theorem C2_ptr_hash_never_returns (inner : Nat → Bytes) (heap : Nat → Nat) :
    ∀ (fuel p : Nat), sszPtrHashTreeRoot inner heap fuel p = none := by
  intro fuel
  induction fuel with
  | zero => intro p; rfl
  | succ fuel ih =>
    intro p
    unfold sszPtrHashTreeRoot
    exact ih (heap p)

/-! ## C6: the signing root -/

theorem merkNode_congr (hashF : Bytes → Bytes → Bytes) (leaf leaf' : Nat → Bytes)
    (n : Nat) (hagree : ∀ i < n, leaf i = leaf' i) :
    ∀ (k j : Nat), merkNode hashF leaf n k j = merkNode hashF leaf' n k j := by
  intro k
  induction k with
  | zero =>
    intro j
    unfold merkNode
    by_cases hj : j < n
    · rw [if_pos hj, if_pos hj, hagree j hj]
    · rw [if_neg hj, if_neg hj]
  | succ k ih =>
    intro j
    unfold merkNode
    rw [ih (2 * j), ih (2 * j + 1)]

theorem merkleize_congr (hashF : Bytes → Bytes → Bytes) (leafCount padCount : Nat)
    (leaf leaf' : Nat → Bytes) (hagree : ∀ i < leafCount, leaf i = leaf' i) :
    merkleize hashF leafCount padCount leaf = merkleize hashF leafCount padCount leaf' := by
  unfold merkleize
  by_cases hp : padCount = 0
  · rw [if_pos hp, if_pos hp]
  · rw [if_neg hp, if_neg hp, merkNode_congr hashF leaf leaf' leafCount hagree]

/-- **C6.** For every container with at least one field, the signing root is
the Merkleization — with `leaf_count = padded_count = field_count - 1` — of
the hash tree roots of all fields except the last; for a container with
zero fields, the signing root is the Merkleization with `leaf_count = 0`. -/
theorem C6_signing_root_drops_last_field (hashF : Bytes → Bytes → Bytes) (fuel : Nat)
    (fs : List SSZT) (vs : List Value) (hlen : vs.length = fs.length) :
    (fs ≠ [] → signingRootF fuel hashF fs vs
      = merkleize hashF (fs.length - 1) (fs.length - 1)
          (leafOfList (((fs.zip vs).map (fun fv => htrF fuel hashF fv.1 fv.2)).dropLast)))
    ∧ (fs = [] → signingRootF fuel hashF fs vs = merkleize hashF 0 0 (leafOfList [])) := by
  constructor
  · intro hne
    unfold signingRootF
    dsimp only
    have hn : fs.length ≠ 0 := by
      cases fs
      · exact absurd rfl hne
      · simp
    rw [if_pos hn]
    apply merkleize_congr
    intro i hi
    have hzlen : ((fs.zip vs).map (fun fv => htrF fuel hashF fv.1 fv.2)).length = fs.length := by
      simp [List.length_zip, hlen]
    unfold leafOfList
    rw [List.dropLast_eq_take, hzlen]
    rw [List.getD, List.getD, List.get?_eq_getElem?, List.get?_eq_getElem?,
      List.getElem?_take_of_lt (by omega)]
  · intro hnil
    subst hnil
    unfold signingRootF
    simp [List.zip_nil_left]

/-- Witness for C6 at a concrete two-field container (`{u8, u8}` holding
`{1, 2}`) and a concrete hash function: the signing root Merkleizes only the
first field's root. -/
theorem C6_signing_root_drops_last_field_witness :
    signingRootF 1 (fun a b => a ++ b) [.tu8, .tu8] [.vuint 1, .vuint 2]
      = merkleize (fun a b => a ++ b) 1 1
          (leafOfList ((([SSZT.tu8, SSZT.tu8].zip [Value.vuint 1, Value.vuint 2]).map
            (fun fv => htrF 1 (fun a b => a ++ b) fv.1 fv.2)).dropLast)) :=
  (C6_signing_root_drops_last_field (fun a b => a ++ b) 1 [.tu8, .tu8]
    [.vuint 1, .vuint 2] rfl).1 (by simp)

/-! ## Generic sum and length lemmas -/

theorem sum_map_of_const {α : Type} (l : List α) (g : α → Nat) (c : Nat)
    (h : ∀ b ∈ l, g b = c) : (l.map g).sum = l.length * c := by
  induction l with
  | nil => simp
  | cons a l ih =>
    simp only [List.map_cons, List.sum_cons, List.length_cons]
    rw [h a (List.mem_cons_self a l), ih (fun b hb => h b (List.mem_cons_of_mem a hb))]
    ring

theorem sum_map_lower {α : Type} (l : List α) (g : α → Nat) (c : Nat)
    (h : ∀ b ∈ l, c ≤ g b) : l.length * c ≤ (l.map g).sum := by
  induction l with
  | nil => simp
  | cons a l ih =>
    simp only [List.map_cons, List.sum_cons, List.length_cons]
    have h1 := h a (List.mem_cons_self a l)
    have h2 := ih (fun b hb => h b (List.mem_cons_of_mem a hb))
    calc (l.length + 1) * c = c + l.length * c := by ring
    _ ≤ g a + (l.map g).sum := Nat.add_le_add h1 h2

theorem fixedLenFields_eq_sum (fs : List SSZT) :
    fixedLenFields fs = (fs.map (fun f => if isFixedT f then fixedLenT f else 4)).sum := by
  induction fs with
  | nil => rfl
  | cons f fs ih =>
    unfold fixedLenFields
    simp only [List.map_cons, List.sum_cons, BYTES_PER_LENGTH_OFFSET, ih]

theorem encVarSeriesOffsets_eq (szFn : Value → Nat) :
    ∀ (vs : List Value) (p s : Nat),
    encVarSeriesOffsets szFn vs p s = ((seriesOffsets szFn vs (p + s)).map (leBytes 4)).flatten := by
  intro vs
  induction vs with
  | nil => intro p s; rfl
  | cons v rest ih =>
    intro p s
    unfold encVarSeriesOffsets seriesOffsets
    simp only [List.map_cons, List.flatten_cons, ih (p + s) (szFn v)]

theorem seriesOffsets_length (szFn : Value → Nat) :
    ∀ (vs : List Value) (base : Nat), (seriesOffsets szFn vs base).length = vs.length := by
  intro vs
  induction vs with
  | nil => intro base; rfl
  | cons v rest ih => intro base; unfold seriesOffsets; simp [ih]

theorem seriesOffsets_le (szFn : Value → Nat) :
    ∀ (vs : List Value) (base : Nat), ∀ o ∈ seriesOffsets szFn vs base,
      o ≤ base + (vs.map szFn).sum := by
  intro vs
  induction vs with
  | nil => intro base o ho; simp [seriesOffsets] at ho
  | cons v rest ih =>
    intro base o ho
    unfold seriesOffsets at ho
    simp only [List.map_cons, List.sum_cons]
    rcases List.mem_cons.mp ho with heq | ho
    · omega
    · have := ih (base + szFn v) o ho
      omega

theorem encContainerFixedPart_length :
    ∀ (pairs : List (Bool × Bytes)) (FL fwd : Nat),
    (encContainerFixedPart pairs FL fwd).length
      = (pairs.map (fun p => if p.1 then p.2.length else 4)).sum := by
  intro pairs
  induction pairs with
  | nil => intro FL fwd; rfl
  | cons p rest ih =>
    intro FL fwd
    rcases p with ⟨b, bs⟩
    cases b
    · unfold encContainerFixedPart
      simp [ih, leBytes_length]
    · unfold encContainerFixedPart
      simp [ih]

theorem encContainerVarPart_length :
    ∀ (pairs : List (Bool × Bytes)),
    (encContainerVarPart pairs).length
      = (pairs.map (fun p => if p.1 then 0 else p.2.length)).sum := by
  intro pairs
  induction pairs with
  | nil => rfl
  | cons p rest ih =>
    rcases p with ⟨b, bs⟩
    cases b
    · unfold encContainerVarPart
      simp [ih]
    · unfold encContainerVarPart
      simp [ih]

theorem encContainerVarPart_all_fixed :
    ∀ (pairs : List (Bool × Bytes)), (∀ p ∈ pairs, p.1 = true) →
    encContainerVarPart pairs = [] := by
  intro pairs
  induction pairs with
  | nil => intro _; rfl
  | cons p rest ih =>
    intro h
    rcases p with ⟨b, bs⟩
    have hb := h (b, bs) (List.mem_cons_self _ _)
    simp only at hb
    subst hb
    unfold encContainerVarPart
    exact ih (fun q hq => h q (List.mem_cons_of_mem _ hq))

theorem containerOffsets_le :
    ∀ (pairs : List (Bool × Bytes)) (FL fwd : Nat), ∀ o ∈ containerOffsets pairs FL fwd,
      o ≤ FL + fwd + (pairs.map (fun p => if p.1 then 0 else p.2.length)).sum := by
  intro pairs
  induction pairs with
  | nil => intro FL fwd o ho; simp [containerOffsets] at ho
  | cons p rest ih =>
    intro FL fwd o ho
    rcases p with ⟨b, bs⟩
    cases b
    · unfold containerOffsets at ho
      simp only [List.map_cons, List.sum_cons, if_neg (by simp : ¬ ((false : Bool) = true))]
      rcases List.mem_cons.mp ho with heq | ho
      · omega
      · have := ih FL (fwd + bs.length) o ho
        omega
    · unfold containerOffsets at ho
      simp only [List.map_cons, List.sum_cons, if_pos (rfl : (true : Bool) = true)]
      have := ih FL fwd o ho
      omega

/-! ## Unfolding and inversion lemmas for the fueled functions -/

theorem validF_ptr (fuel : Nat) (e : SSZT) (v : Value) :
    validF (fuel + 1) (.tptr e) v = validF fuel e v := rfl

theorem enc_ptr (fuel : Nat) (e : SSZT) (v : Value) :
    enc (fuel + 1) (.tptr e) v = enc fuel e v := rfl

theorem fitsF_ptr (fuel : Nat) (e : SSZT) (v : Value) :
    fitsF (fuel + 1) (.tptr e) v = true → fitsF fuel e v = true := by
  intro h
  unfold fitsF at h
  exact (Bool.and_eq_true_iff.mp h).2

theorem validF_vector_inv (fuel : Nat) (e : SSZT) (n : Nat) (v : Value)
    (h : validF (fuel + 1) (.tvector e n) v = true) :
    ∃ vs, v = .vseq vs ∧ vs.length = n ∧ ∀ w ∈ vs, validF fuel e w = true := by
  cases v with
  | vuint m => simp [validF] at h
  | vbool b => simp [validF] at h
  | vseq vs =>
    simp only [validF, Bool.and_eq_true, decide_eq_true_eq, List.all_eq_true] at h
    exact ⟨vs, rfl, h.1, h.2⟩

theorem validF_list_inv (fuel : Nat) (e : SSZT) (lim : Nat) (v : Value)
    (h : validF (fuel + 1) (.tlist e lim) v = true) :
    ∃ vs, v = .vseq vs ∧ vs.length ≤ lim ∧ ∀ w ∈ vs, validF fuel e w = true := by
  cases v with
  | vuint m => simp [validF] at h
  | vbool b => simp [validF] at h
  | vseq vs =>
    simp only [validF, Bool.and_eq_true, decide_eq_true_eq, List.all_eq_true] at h
    exact ⟨vs, rfl, h.1, h.2⟩

theorem validF_container_inv (fuel : Nat) (fs : List SSZT) (v : Value)
    (h : validF (fuel + 1) (.tcontainer fs) v = true) :
    ∃ vs, v = .vseq vs ∧ vs.length = fs.length
      ∧ ∀ fv ∈ fs.zip vs, validF fuel fv.1 fv.2 = true := by
  cases v with
  | vuint m => simp [validF] at h
  | vbool b => simp [validF] at h
  | vseq vs =>
    simp only [validF, Bool.and_eq_true, decide_eq_true_eq, List.all_eq_true] at h
    exact ⟨vs, rfl, h.1, h.2⟩

theorem fitsF_vector_elems (fuel : Nat) (e : SSZT) (n : Nat) (vs : List Value)
    (h : fitsF (fuel + 1) (.tvector e n) (.vseq vs) = true) :
    ∀ w ∈ vs, fitsF fuel e w = true := by
  intro w hw
  unfold fitsF at h
  have h2 := (Bool.and_eq_true_iff.mp h).2
  exact List.all_eq_true.mp h2 w hw

theorem fitsF_list_elems (fuel : Nat) (e : SSZT) (lim : Nat) (vs : List Value)
    (h : fitsF (fuel + 1) (.tlist e lim) (.vseq vs) = true) :
    ∀ w ∈ vs, fitsF fuel e w = true := by
  intro w hw
  unfold fitsF at h
  have h2 := (Bool.and_eq_true_iff.mp h).2
  exact List.all_eq_true.mp h2 w hw

theorem fitsF_container_fields (fuel : Nat) (fs : List SSZT) (vs : List Value)
    (h : fitsF (fuel + 1) (.tcontainer fs) (.vseq vs) = true) :
    ∀ fv ∈ fs.zip vs, fitsF fuel fv.1 fv.2 = true := by
  intro fv hfv
  unfold fitsF at h
  have h2 := (Bool.and_eq_true_iff.mp h).2
  exact List.all_eq_true.mp h2 fv hfv

theorem fitsF_var_bound (fuel : Nat) (t : SSZT) (v : Value)
    (h : fitsF (fuel + 1) t v = true) (hfix : isFixedT t = false) :
    (enc (fuel + 1) t v).length < 4294967296 := by
  unfold fitsF at h
  have h1 := (Bool.and_eq_true_iff.mp h).1
  rw [hfix] at h1
  simpa using h1

theorem wfFields_mem : ∀ (fs : List SSZT), wfFields fs = true → ∀ f ∈ fs, wfT f = true := by
  intro fs
  induction fs with
  | nil => intro _ f hf; simp at hf
  | cons g fs ih =>
    intro h f hf
    unfold wfFields at h
    obtain ⟨h1, h2⟩ := Bool.and_eq_true_iff.mp h
    rcases List.mem_cons.mp hf with heq | hf
    · subst heq; exact h1
    · exact ih h2 f hf

theorem isFixedFields_mem : ∀ (fs : List SSZT), isFixedFields fs = true →
    ∀ f ∈ fs, isFixedT f = true := by
  intro fs
  induction fs with
  | nil => intro _ f hf; simp at hf
  | cons g fs ih =>
    intro h f hf
    unfold isFixedFields at h
    obtain ⟨h1, h2⟩ := Bool.and_eq_true_iff.mp h
    rcases List.mem_cons.mp hf with heq | hf
    · subst heq; exact h1
    · exact ih h2 f hf

theorem depthT_pos (t : SSZT) : 1 ≤ depthT t := by
  cases t <;> simp only [depthT] <;> omega

theorem depthFields_mem : ∀ (fs : List SSZT), ∀ f ∈ fs, depthT f ≤ depthFields fs := by
  intro fs
  induction fs with
  | nil => intro f hf; simp at hf
  | cons g fs ih =>
    intro f hf
    unfold depthFields
    rcases List.mem_cons.mp hf with heq | hf
    · subst heq; omega
    · have := ih f hf; omega

theorem zip_fst_sum {β : Type} (fs : List SSZT) (vs : List β) (g : SSZT × β → Nat)
    (h : SSZT → Nat) (hg : ∀ p, g p = h p.1) (hlen : vs.length = fs.length) :
    ((fs.zip vs).map g).sum = (fs.map h).sum := by
  have heq : (fs.zip vs).map g = ((fs.zip vs).map Prod.fst).map h := by
    rw [List.map_map]
    exact List.map_congr_left (fun p _ => hg p)
  rw [heq, List.map_fst_zip fs vs (by omega)]

/-! ## Unfolding lemmas for the fueled encoder -/

theorem enc_u8 (fuel n : Nat) : enc (fuel + 1) .tu8 (.vuint n) = leBytes 1 n := rfl

theorem enc_u16 (fuel n : Nat) : enc (fuel + 1) .tu16 (.vuint n) = leBytes 2 n := rfl

theorem enc_u32 (fuel n : Nat) : enc (fuel + 1) .tu32 (.vuint n) = leBytes 4 n := rfl

theorem enc_u64 (fuel n : Nat) : enc (fuel + 1) .tu64 (.vuint n) = leBytes 8 n := rfl

theorem enc_bool (fuel : Nat) (b : Bool) :
    enc (fuel + 1) .tbool (.vbool b) = [if b then 1 else 0] := rfl

theorem enc_vector_fixed (fuel : Nat) (e : SSZT) (n : Nat) (vs : List Value)
    (h : isFixedT e = true) :
    enc (fuel + 1) (.tvector e n) (.vseq vs) = (vs.map (fun w => enc fuel e w)).flatten := by
  conv_lhs => rw [enc]
  rw [if_pos h]

theorem enc_vector_var (fuel : Nat) (e : SSZT) (n : Nat) (vs : List Value)
    (h : isFixedT e = false) :
    enc (fuel + 1) (.tvector e n) (.vseq vs)
      = encVarSeriesOffsets (fun w => sszSize fuel e w) vs (4 * vs.length) 0
        ++ (vs.map (fun w => enc fuel e w)).flatten := by
  conv_lhs => rw [enc]
  rw [h, if_neg Bool.false_ne_true]
  rfl

theorem enc_list_fixed (fuel : Nat) (e : SSZT) (lim : Nat) (vs : List Value)
    (h : isFixedT e = true) :
    enc (fuel + 1) (.tlist e lim) (.vseq vs) = (vs.map (fun w => enc fuel e w)).flatten := by
  conv_lhs => rw [enc]
  rw [if_pos h]

theorem enc_list_var (fuel : Nat) (e : SSZT) (lim : Nat) (vs : List Value)
    (h : isFixedT e = false) :
    enc (fuel + 1) (.tlist e lim) (.vseq vs)
      = encVarSeriesOffsets (fun w => sszSize fuel e w) vs (4 * vs.length) 0
        ++ (vs.map (fun w => enc fuel e w)).flatten := by
  conv_lhs => rw [enc]
  rw [h, if_neg Bool.false_ne_true]
  rfl

theorem enc_container (fuel : Nat) (fs : List SSZT) (vs : List Value) :
    enc (fuel + 1) (.tcontainer fs) (.vseq vs)
      = encContainerFixedPart
          ((fs.zip vs).map (fun fv => (isFixedT fv.1, enc fuel fv.1 fv.2)))
          (fixedLenFields fs) 0
        ++ encContainerVarPart
          ((fs.zip vs).map (fun fv => (isFixedT fv.1, enc fuel fv.1 fv.2))) := rfl

/-! ## The serialized length of fixed-size values equals `FixedLen` -/

theorem encLen_fixed : ∀ (fuel : Nat) (t : SSZT) (v : Value),
    depthT t ≤ fuel → validF fuel t v = true → isFixedT t = true →
    (enc fuel t v).length = fixedLenT t := by
  intro fuel
  induction fuel with
  | zero =>
    intro t v hd _ _
    have := depthT_pos t
    omega
  | succ fuel ih =>
    intro t v hd hv hfix
    cases t with
    | tu8 =>
      cases v with
      | vuint n => rw [enc_u8, leBytes_length]; rfl
      | vbool b => simp [validF] at hv
      | vseq vs => simp [validF] at hv
    | tu16 =>
      cases v with
      | vuint n => rw [enc_u16, leBytes_length]; rfl
      | vbool b => simp [validF] at hv
      | vseq vs => simp [validF] at hv
    | tu32 =>
      cases v with
      | vuint n => rw [enc_u32, leBytes_length]; rfl
      | vbool b => simp [validF] at hv
      | vseq vs => simp [validF] at hv
    | tu64 =>
      cases v with
      | vuint n => rw [enc_u64, leBytes_length]; rfl
      | vbool b => simp [validF] at hv
      | vseq vs => simp [validF] at hv
    | tbool =>
      cases v with
      | vuint n => simp [validF] at hv
      | vbool b => rw [enc_bool]; rfl
      | vseq vs => simp [validF] at hv
    | tptr e =>
      have hd' : depthT e ≤ fuel := by
        simp only [depthT] at hd; omega
      exact ih e v hd' hv hfix
    | tvector e n =>
      obtain ⟨vs, rfl, hlen, hall⟩ := validF_vector_inv fuel e n v hv
      have hfixe : isFixedT e = true := hfix
      have hd' : depthT e ≤ fuel := by
        simp only [depthT] at hd; omega
      rw [enc_vector_fixed fuel e n vs hfixe]
      rw [List.length_flatten, List.map_map]
      have : ((fun bs => List.length bs) ∘ fun w => enc fuel e w)
          = fun w => (enc fuel e w).length := rfl
      rw [this, sum_map_of_const vs _ (fixedLenT e)
        (fun w hw => ih e w hd' (hall w hw) hfixe)]
      show vs.length * fixedLenT e = fixedLenT (.tvector e n)
      simp only [fixedLenT, hlen]
      ring
    | tlist e lim =>
      simp only [isFixedT] at hfix
      exact absurd hfix Bool.false_ne_true
    | tcontainer fs =>
      obtain ⟨vs, rfl, hlen, hall⟩ := validF_container_inv fuel fs v hv
      have hfixf : isFixedFields fs = true := hfix
      rw [enc_container]
      have hvarnil : encContainerVarPart
          ((fs.zip vs).map (fun fv => (isFixedT fv.1, enc fuel fv.1 fv.2))) = [] := by
        apply encContainerVarPart_all_fixed
        intro p hp
        obtain ⟨fv, hfv, rfl⟩ := List.mem_map.mp hp
        exact isFixedFields_mem fs hfixf fv.1 (List.of_mem_zip hfv).1
      rw [hvarnil, List.append_nil, encContainerFixedPart_length, List.map_map]
      have hcomp : ((fun p : Bool × Bytes => if p.1 = true then p.2.length else 4)
            ∘ fun fv : SSZT × Value => (isFixedT fv.1, enc fuel fv.1 fv.2))
          = fun fv : SSZT × Value =>
              if isFixedT fv.1 = true then (enc fuel fv.1 fv.2).length else 4 := rfl
      rw [hcomp]
      have hpoint : ∀ fv : SSZT × Value, fv ∈ fs.zip vs →
          (if isFixedT fv.1 = true then (enc fuel fv.1 fv.2).length else 4)
            = (if isFixedT fv.1 = true then fixedLenT fv.1 else 4) := by
        intro fv hfv
        have hffix := isFixedFields_mem fs hfixf fv.1 (List.of_mem_zip hfv).1
        rw [if_pos hffix, if_pos hffix]
        have hd' : depthT fv.1 ≤ fuel := by
          have h1 := depthFields_mem fs fv.1 (List.of_mem_zip hfv).1
          simp only [depthT] at hd
          omega
        exact ih fv.1 fv.2 hd' (hall fv hfv) hffix
      rw [List.map_congr_left hpoint,
        zip_fst_sum fs vs _ (fun f => if isFixedT f = true then fixedLenT f else 4)
          (fun p => rfl) hlen]
      show _ = fixedLenT (.tcontainer fs)
      simp only [fixedLenT]
      rw [fixedLenFields_eq_sum]

/-! ## `SizeOf` equals the serialized length -/

theorem length_flatten_map {α : Type} (g : α → Bytes) (l : List α) :
    ((l.map g).flatten).length = (l.map (fun a => (g a).length)).sum := by
  rw [List.length_flatten, List.map_map]
  rfl

theorem encVarSeriesOffsets_length (szFn : Value → Nat) (vs : List Value) (p s : Nat) :
    (encVarSeriesOffsets szFn vs p s).length = 4 * vs.length := by
  rw [encVarSeriesOffsets_eq, length_flatten_map,
    sum_map_of_const _ _ 4 (fun o _ => leBytes_length 4 o), seriesOffsets_length]
  ring

theorem sszSize_vector_fixed (fuel : Nat) (e : SSZT) (n : Nat) (vs : List Value)
    (h : isFixedT e = true) :
    sszSize (fuel + 1) (.tvector e n) (.vseq vs) = fixedLenT e * vs.length := by
  conv_lhs => rw [sszSize]
  rw [if_pos h]

theorem sszSize_vector_var (fuel : Nat) (e : SSZT) (n : Nat) (vs : List Value)
    (h : isFixedT e = false) :
    sszSize (fuel + 1) (.tvector e n) (.vseq vs)
      = 4 * vs.length + (vs.map (fun w => sszSize fuel e w)).sum := by
  conv_lhs => rw [sszSize]
  rw [h, if_neg Bool.false_ne_true]
  rfl

theorem sszSize_list_fixed (fuel : Nat) (e : SSZT) (lim : Nat) (vs : List Value)
    (h : isFixedT e = true) :
    sszSize (fuel + 1) (.tlist e lim) (.vseq vs) = fixedLenT e * vs.length := by
  conv_lhs => rw [sszSize]
  rw [if_pos h]

theorem sszSize_list_var (fuel : Nat) (e : SSZT) (lim : Nat) (vs : List Value)
    (h : isFixedT e = false) :
    sszSize (fuel + 1) (.tlist e lim) (.vseq vs)
      = 4 * vs.length + (vs.map (fun w => sszSize fuel e w)).sum := by
  conv_lhs => rw [sszSize]
  rw [h, if_neg Bool.false_ne_true]
  rfl

theorem sszSize_container (fuel : Nat) (fs : List SSZT) (vs : List Value) :
    sszSize (fuel + 1) (.tcontainer fs) (.vseq vs)
      = fixedLenFields fs
        + ((fs.zip vs).map
            (fun fv => if isFixedT fv.1 then 0 else sszSize fuel fv.1 fv.2)).sum := rfl

/-- The fixed region of a container encoding has length `fixedLenFields fs`,
for any offset base and forward-queue start. -/
theorem fixPartLen_eq (fuel : Nat) (fs : List SSZT) (vs : List Value) (FL fwd : Nat)
    (hd : depthFields fs ≤ fuel) (hlen : vs.length = fs.length)
    (hall : ∀ fv ∈ fs.zip vs, validF fuel fv.1 fv.2 = true) :
    (encContainerFixedPart ((fs.zip vs).map (fun fv => (isFixedT fv.1, enc fuel fv.1 fv.2)))
        FL fwd).length = fixedLenFields fs := by
  rw [encContainerFixedPart_length, List.map_map]
  have hcomp : ((fun p : Bool × Bytes => if p.1 = true then p.2.length else 4)
        ∘ fun fv : SSZT × Value => (isFixedT fv.1, enc fuel fv.1 fv.2))
      = fun fv : SSZT × Value =>
          if isFixedT fv.1 = true then (enc fuel fv.1 fv.2).length else 4 := rfl
  rw [hcomp]
  have hpoint : ∀ fv : SSZT × Value, fv ∈ fs.zip vs →
      (if isFixedT fv.1 = true then (enc fuel fv.1 fv.2).length else 4)
        = (if isFixedT fv.1 = true then fixedLenT fv.1 else 4) := by
    intro fv hfv
    by_cases hffix : isFixedT fv.1 = true
    · rw [if_pos hffix, if_pos hffix]
      have hd' : depthT fv.1 ≤ fuel := by
        have h1 := depthFields_mem fs fv.1 (List.of_mem_zip hfv).1
        omega
      exact encLen_fixed fuel fv.1 fv.2 hd' (hall fv hfv) hffix
    · rw [if_neg hffix, if_neg hffix]
  rw [List.map_congr_left hpoint,
    zip_fst_sum fs vs _ (fun f => if isFixedT f = true then fixedLenT f else 4)
      (fun p => rfl) hlen]
  rw [fixedLenFields_eq_sum]

theorem sszSize_eq_encLen : ∀ (fuel : Nat) (t : SSZT) (v : Value),
    depthT t ≤ fuel → validF fuel t v = true →
    sszSize fuel t v = (enc fuel t v).length := by
  intro fuel
  induction fuel with
  | zero =>
    intro t v hd _
    have := depthT_pos t
    omega
  | succ fuel ih =>
    intro t v hd hv
    cases t with
    | tu8 =>
      cases v with
      | vuint n => rw [enc_u8, leBytes_length]; rfl
      | vbool b => simp [validF] at hv
      | vseq vs => simp [validF] at hv
    | tu16 =>
      cases v with
      | vuint n => rw [enc_u16, leBytes_length]; rfl
      | vbool b => simp [validF] at hv
      | vseq vs => simp [validF] at hv
    | tu32 =>
      cases v with
      | vuint n => rw [enc_u32, leBytes_length]; rfl
      | vbool b => simp [validF] at hv
      | vseq vs => simp [validF] at hv
    | tu64 =>
      cases v with
      | vuint n => rw [enc_u64, leBytes_length]; rfl
      | vbool b => simp [validF] at hv
      | vseq vs => simp [validF] at hv
    | tbool =>
      cases v with
      | vuint n => simp [validF] at hv
      | vbool b => rw [enc_bool]; rfl
      | vseq vs => simp [validF] at hv
    | tptr e =>
      have hd' : depthT e ≤ fuel := by simp only [depthT] at hd; omega
      exact ih e v hd' hv
    | tvector e n =>
      obtain ⟨vs, rfl, hlen, hall⟩ := validF_vector_inv fuel e n v hv
      have hd' : depthT e ≤ fuel := by simp only [depthT] at hd; omega
      by_cases hfe : isFixedT e = true
      · rw [sszSize_vector_fixed fuel e n vs hfe,
          encLen_fixed (fuel + 1) (.tvector e n) (.vseq vs) hd hv hfe]
        simp only [fixedLenT, hlen]
      · have hfe' : isFixedT e = false := by
          cases hb : isFixedT e
          · rfl
          · exact absurd hb hfe
        rw [sszSize_vector_var fuel e n vs hfe', enc_vector_var fuel e n vs hfe',
          List.length_append, encVarSeriesOffsets_length, length_flatten_map]
        have := List.map_congr_left
          (fun w hw => ih e w hd' (hall w hw))
        rw [this]
    | tlist e lim =>
      obtain ⟨vs, rfl, hlim, hall⟩ := validF_list_inv fuel e lim v hv
      have hd' : depthT e ≤ fuel := by simp only [depthT] at hd; omega
      by_cases hfe : isFixedT e = true
      · rw [sszSize_list_fixed fuel e lim vs hfe, enc_list_fixed fuel e lim vs hfe,
          length_flatten_map,
          sum_map_of_const _ _ (fixedLenT e)
            (fun w hw => encLen_fixed fuel e w hd' (hall w hw) hfe)]
        ring
      · have hfe' : isFixedT e = false := by
          cases hb : isFixedT e
          · rfl
          · exact absurd hb hfe
        rw [sszSize_list_var fuel e lim vs hfe', enc_list_var fuel e lim vs hfe',
          List.length_append, encVarSeriesOffsets_length, length_flatten_map]
        have := List.map_congr_left
          (fun w hw => ih e w hd' (hall w hw))
        rw [this]
    | tcontainer fs =>
      obtain ⟨vs, rfl, hlen, hall⟩ := validF_container_inv fuel fs v hv
      have hd' : depthFields fs ≤ fuel := by simp only [depthT] at hd; omega
      rw [sszSize_container, enc_container, List.length_append,
        fixPartLen_eq fuel fs vs _ _ hd' hlen hall, encContainerVarPart_length,
        List.map_map]
      have hcomp : ((fun p : Bool × Bytes => if p.1 = true then 0 else p.2.length)
            ∘ fun fv : SSZT × Value => (isFixedT fv.1, enc fuel fv.1 fv.2))
          = fun fv : SSZT × Value =>
              if isFixedT fv.1 = true then 0 else (enc fuel fv.1 fv.2).length := rfl
      rw [hcomp]
      congr 1
      congr 1
      apply List.map_congr_left
      intro fv hfv
      by_cases hffix : isFixedT fv.1 = true
      · rw [if_pos hffix, if_pos hffix]
      · rw [if_neg hffix, if_neg hffix]
        have hdf : depthT fv.1 ≤ fuel := by
          have := depthFields_mem fs fv.1 (List.of_mem_zip hfv).1
          omega
        exact ih fv.1 fv.2 hdf (hall fv hfv)

theorem fixedLenT_le_encLen : ∀ (fuel : Nat) (t : SSZT) (v : Value),
    depthT t ≤ fuel → validF fuel t v = true → isFixedT t = false →
    fixedLenT t ≤ (enc fuel t v).length := by
  intro fuel
  induction fuel with
  | zero =>
    intro t v hd _ _
    have := depthT_pos t
    omega
  | succ fuel ih =>
    intro t v hd hv hfix
    cases t with
    | tu8 => simp [isFixedT] at hfix
    | tu16 => simp [isFixedT] at hfix
    | tu32 => simp [isFixedT] at hfix
    | tu64 => simp [isFixedT] at hfix
    | tbool => simp [isFixedT] at hfix
    | tptr e =>
      have hd' : depthT e ≤ fuel := by simp only [depthT] at hd; omega
      exact ih e v hd' hv hfix
    | tvector e n =>
      obtain ⟨vs, rfl, hlen, hall⟩ := validF_vector_inv fuel e n v hv
      have hd' : depthT e ≤ fuel := by simp only [depthT] at hd; omega
      have hfe : isFixedT e = false := hfix
      rw [enc_vector_var fuel e n vs hfe, List.length_append,
        encVarSeriesOffsets_length, length_flatten_map]
      have hlow := sum_map_lower vs (fun w => (enc fuel e w).length) (fixedLenT e)
        (fun w hw => ih e w hd' (hall w hw) hfe)
      show fixedLenT e * n ≤ _
      rw [← hlen]
      calc fixedLenT e * vs.length = vs.length * fixedLenT e := by ring
      _ ≤ (vs.map (fun w => (enc fuel e w).length)).sum := hlow
      _ ≤ 4 * vs.length + (vs.map (fun w => (enc fuel e w).length)).sum := by omega
    | tlist e lim =>
      show fixedLenT (.tlist e lim) ≤ _
      simp only [fixedLenT]
      omega
    | tcontainer fs =>
      obtain ⟨vs, rfl, hlen, hall⟩ := validF_container_inv fuel fs v hv
      have hd' : depthFields fs ≤ fuel := by simp only [depthT] at hd; omega
      rw [enc_container, List.length_append, fixPartLen_eq fuel fs vs _ _ hd' hlen hall]
      show fixedLenFields fs ≤ _
      omega

/-! ## Parse lemmas: the decoder loops restore what the encoder wrote -/

theorem readOffsets_parse : ∀ (offs : List Nat) (tail : Bytes) (i mx : Nat),
    (∀ o ∈ offs, o < 4294967296) → i + 4 * offs.length ≤ mx →
    readOffsets offs.length ⟨(offs.map (leBytes 4)).flatten ++ tail, i, mx⟩
      = (.ok offs, ⟨tail, i + 4 * offs.length, mx⟩) := by
  intro offs
  induction offs with
  | nil =>
    intro tail i mx _ _
    simp [readOffsets]
  | cons o os ih =>
    intro tail i mx hbound hmx
    simp only [List.length_cons]
    unfold readOffsets
    simp only [List.map_cons, List.flatten_cons, List.append_assoc]
    rw [readOffset_ok o ((os.map (leBytes 4)).flatten ++ tail) i mx
      (hbound o (List.mem_cons_self o os)) (by simp at hmx ⊢; omega)]
    dsimp only
    rw [ih tail (i + 4) mx (fun o' ho' => hbound o' (List.mem_cons_of_mem o ho'))
      (by simp at hmx ⊢; omega)]
    dsimp only
    have harith : i + 4 + 4 * os.length = i + 4 * (os.length + 1) := by ring
    rw [harith]

theorem readVarSeriesOffsets_parse (offs : List Nat) (tail : Bytes) (mx : Nat)
    (hne : offs ≠ []) (hhead : offs.head? = some (4 * offs.length))
    (hbound : ∀ o ∈ offs, o < 4294967296) (hmx : 4 * offs.length ≤ mx) :
    readVarSeriesOffsets offs.length ⟨(offs.map (leBytes 4)).flatten ++ tail, 0, mx⟩
      = (.ok offs, ⟨tail, 4 * offs.length, mx⟩) := by
  rcases offs with _ | ⟨o, os⟩
  · exact absurd rfl hne
  · simp only [List.head?_cons, Option.some.injEq, List.length_cons] at hhead
    unfold readVarSeriesOffsets
    rw [if_neg (by simp)]
    simp only [List.map_cons, List.flatten_cons, List.append_assoc, List.length_cons]
    rw [readOffset_ok o ((os.map (leBytes 4)).flatten ++ tail) 0 mx
      (hbound o (List.mem_cons_self o os)) (by simp at hmx ⊢; omega)]
    dsimp only
    have hdiv : o / BYTES_PER_LENGTH_OFFSET = os.length + 1 := by
      rw [hhead]
      simp [BYTES_PER_LENGTH_OFFSET]
    rw [if_neg (by rw [hdiv]; simp)]
    have hrest := readOffsets_parse os tail 4 mx
      (fun o' ho' => hbound o' (List.mem_cons_of_mem o ho'))
      (by simp at hmx ⊢; omega)
    have hlen1 : os.length + 1 - 1 = os.length := by omega
    rw [hlen1, show (0 : Nat) + 4 = 4 from rfl, hrest]
    dsimp only
    have harith : 4 + 4 * os.length = 4 * (os.length + 1) := by ring
    rw [harith]

theorem readVarSliceOffsets_parse (minElemLen bytesLen limit mx : Nat)
    (offs : List Nat) (tail : Bytes)
    (hb : bytesLen ≠ 0) (hne : offs ≠ []) (hhead : offs.head? = some (4 * offs.length))
    (hfb : 4 * offs.length ≤ bytesLen) (hlim : offs.length ≤ limit)
    (hmin : minElemLen * offs.length ≤ mx)
    (hbound : ∀ o ∈ offs, o < 4294967296) (hmx : 4 * offs.length ≤ mx) :
    readVarSliceOffsets minElemLen bytesLen limit
      ⟨(offs.map (leBytes 4)).flatten ++ tail, 0, mx⟩
      = (.ok offs, ⟨tail, 4 * offs.length, mx⟩) := by
  rcases offs with _ | ⟨o, os⟩
  · exact absurd rfl hne
  · simp only [List.head?_cons, Option.some.injEq, List.length_cons] at hhead
    unfold readVarSliceOffsets
    rw [if_neg hb, if_neg (by simp)]
    simp only [List.map_cons, List.flatten_cons, List.append_assoc, List.length_cons]
    rw [readOffset_ok o ((os.map (leBytes 4)).flatten ++ tail) 0 mx
      (hbound o (List.mem_cons_self o os)) (by simp at hmx ⊢; omega)]
    dsimp only
    simp only [List.length_cons] at hfb hlim hmin hmx
    rw [if_neg (by
      simp only [BYTES_PER_LENGTH_OFFSET]
      push_neg
      constructor
      · omega
      · rw [hhead]; omega)]
    have hdiv : o / BYTES_PER_LENGTH_OFFSET = os.length + 1 := by
      rw [hhead]
      simp [BYTES_PER_LENGTH_OFFSET]
    rw [hdiv]
    rw [if_neg (by omega), if_neg (by omega)]
    have hrest := readOffsets_parse os tail 4 mx
      (fun o' ho' => hbound o' (List.mem_cons_of_mem o ho'))
      (by omega)
    have hlen1 : os.length + 1 - 1 = os.length := by omega
    rw [hlen1, show (0 : Nat) + 4 = 4 from rfl, hrest]
    dsimp only
    rw [if_neg (by simp only [BYTES_PER_LENGTH_OFFSET]; omega)]
    rw [show (4 : Nat) + 4 * os.length = 4 * (os.length + 1) from by ring]

theorem decodeFixedSeries_parse (decFn : DecFn) (encE : Value → Bytes) (w : Nat) :
    ∀ (vs : List Value) (rest : Bytes) (i mx : Nat),
    (∀ v ∈ vs, (encE v).length = w ∧ ∀ rest' i' mx', i' + w ≤ mx' →
        decFn ⟨encE v ++ rest', i', mx'⟩ = (.ok v, ⟨rest', i' + w, mx'⟩)) →
    i + w * vs.length ≤ mx →
    decodeFixedSeries decFn vs.length ⟨(vs.map encE).flatten ++ rest, i, mx⟩
      = (.ok vs, ⟨rest, i + w * vs.length, mx⟩) := by
  intro vs
  induction vs with
  | nil =>
    intro rest i mx _ _
    simp [decodeFixedSeries]
  | cons v vs ih =>
    intro rest i mx hdec hmx
    simp only [List.length_cons] at hmx ⊢
    have hmul : w * (vs.length + 1) = w * vs.length + w := by ring
    unfold decodeFixedSeries
    simp only [List.map_cons, List.flatten_cons, List.append_assoc]
    obtain ⟨hlen, hbeh⟩ := hdec v (List.mem_cons_self v vs)
    rw [hbeh ((vs.map encE).flatten ++ rest) i mx (by omega)]
    dsimp only
    rw [ih rest (i + w) mx (fun u hu => hdec u (List.mem_cons_of_mem v hu)) (by omega)]
    dsimp only
    have harith : i + w + w * vs.length = i + w * (vs.length + 1) := by ring
    rw [harith]

theorem decodeVarSeriesFromOffsets_parse (decFn : DecFn) (encE : Value → Bytes) :
    ∀ (vs : List Value) (rest : Bytes) (i mx : Nat),
    (∀ v ∈ vs, ∀ rest', decFn ⟨encE v ++ rest', 0, (encE v).length⟩
        = (.ok v, ⟨rest', (encE v).length, (encE v).length⟩)) →
    mx = i + (vs.map (fun v => (encE v).length)).sum →
    decodeVarSeriesFromOffsets decFn (seriesOffsets (fun v => (encE v).length) vs i)
      ⟨(vs.map encE).flatten ++ rest, i, mx⟩ = (.ok vs, ⟨rest, mx, mx⟩) := by
  intro vs
  induction vs with
  | nil =>
    intro rest i mx _ hmx
    simp only [List.map_nil, List.sum_nil] at hmx
    subst hmx
    simp [seriesOffsets, decodeVarSeriesFromOffsets]
  | cons v vs ih =>
    intro rest i mx hdec hmx
    simp only [List.map_cons, List.sum_cons] at hmx
    unfold seriesOffsets decodeVarSeriesFromOffsets
    dsimp only
    rw [if_neg (show ¬ (i ≠ i) by omega)]
    have hscope : (match seriesOffsets (fun v => (encE v).length) vs (i + (encE v).length) with
        | nextOffset :: _ => if nextOffset ≥ i then Except.ok (nextOffset - i)
            else Except.error Err.invalidOffset
        | [] => Except.ok (mx - i)) = Except.ok ((encE v).length) := by
      cases vs with
      | nil =>
        simp only [seriesOffsets]
        simp only [List.map_nil, List.sum_nil] at hmx
        rw [hmx]
        congr 1
        omega
      | cons v2 vs2 =>
        simp only [seriesOffsets]
        rw [if_pos (by omega)]
        congr 1
        omega
    rw [hscope]
    dsimp only
    unfold scopeReader
    dsimp only
    rw [if_neg (show ¬ (mx - i < (encE v).length) by omega)]
    dsimp only
    simp only [List.map_cons, List.flatten_cons, List.append_assoc]
    rw [hdec v (List.mem_cons_self v vs) ((vs.map encE).flatten ++ rest)]
    dsimp only [updateIndexFromScoped]
    rw [ih rest (i + (encE v).length) mx
      (fun u hu rest' => hdec u (List.mem_cons_of_mem v hu) rest') (by omega)]

theorem fixedLenFields_cons (f : SSZT) (fs : List SSZT) :
    fixedLenFields (f :: fs)
      = (if isFixedT f then fixedLenT f else BYTES_PER_LENGTH_OFFSET) + fixedLenFields fs := by
  simp [fixedLenFields]

theorem encContainerFixedPart_cons (b : Bool) (bs : Bytes) (rest : List (Bool × Bytes))
    (FL fwd : Nat) :
    encContainerFixedPart ((b, bs) :: rest) FL fwd
      = if b then bs ++ encContainerFixedPart rest FL fwd
        else leBytes 4 (FL + fwd) ++ encContainerFixedPart rest FL (fwd + bs.length) := by
  cases b <;> rfl

theorem containerOffsets_cons (b : Bool) (bs : Bytes) (rest : List (Bool × Bytes))
    (FL fwd : Nat) :
    containerOffsets ((b, bs) :: rest) FL fwd
      = if b then containerOffsets rest FL fwd
        else (FL + fwd) :: containerOffsets rest FL (fwd + bs.length) := by
  cases b <;> rfl

theorem encContainerVarPart_cons (b : Bool) (bs : Bytes) (rest : List (Bool × Bytes)) :
    encContainerVarPart ((b, bs) :: rest)
      = if b then encContainerVarPart rest else bs ++ encContainerVarPart rest := by
  cases b <;> rfl

theorem containerOffsets_shape :
    ∀ (pairs : List (Bool × Bytes)) (FL fwd : Nat),
    containerOffsets pairs FL fwd = []
      ∨ ∃ os', containerOffsets pairs FL fwd = (FL + fwd) :: os' := by
  intro pairs
  induction pairs with
  | nil => intro FL fwd; left; rfl
  | cons p rest ih =>
    intro FL fwd
    rcases p with ⟨b, bs⟩
    cases b
    · right
      exact ⟨containerOffsets rest FL (fwd + bs.length), rfl⟩
    · exact ih FL fwd

theorem containerOffsets_nil_sum :
    ∀ (pairs : List (Bool × Bytes)) (FL fwd : Nat),
    containerOffsets pairs FL fwd = [] →
    (pairs.map (fun p => if p.1 then 0 else p.2.length)).sum = 0 := by
  intro pairs
  induction pairs with
  | nil => intro FL fwd _; rfl
  | cons p rest ih =>
    intro FL fwd h
    rcases p with ⟨b, bs⟩
    cases b
    · exact absurd h (by simp [containerOffsets])
    · simp only [containerOffsets] at h
      simp [ih FL fwd h]

/-- The fixed pass of the container decode restores the fixed fields and
collects exactly the written offsets. -/
theorem decodeFixedPartLoop_parse (decF : SSZT → DecFn) (encE : SSZT → Value → Bytes) :
    ∀ (fs : List SSZT) (vs : List Value) (FL fwd i mx : Nat) (tail : Bytes),
    vs.length = fs.length →
    (∀ fv : SSZT × Value, fv ∈ fs.zip vs → isFixedT fv.1 = true →
      (encE fv.1 fv.2).length = fixedLenT fv.1 ∧
      (∀ rest' i' mx', i' + fixedLenT fv.1 ≤ mx' →
        decF fv.1 ⟨encE fv.1 fv.2 ++ rest', i', mx'⟩
          = (.ok fv.2, ⟨rest', i' + fixedLenT fv.1, mx'⟩))) →
    ((∃ fv ∈ fs.zip vs, isFixedT fv.1 = false) →
      FL + fwd + ((fs.zip vs).map
        (fun fv => if isFixedT fv.1 then 0 else (encE fv.1 fv.2).length)).sum < 4294967296) →
    i + fixedLenFields fs ≤ mx →
    decodeFixedPartLoop (fs.map (fun f => ⟨isFixedT f, fixedLenT f, decF f⟩)) i
      ⟨encContainerFixedPart
          ((fs.zip vs).map (fun fv => (isFixedT fv.1, encE fv.1 fv.2))) FL fwd ++ tail, i, mx⟩
      = (.ok ((fs.zip vs).map (fun fv => if isFixedT fv.1 then some fv.2 else none),
          containerOffsets ((fs.zip vs).map (fun fv => (isFixedT fv.1, encE fv.1 fv.2))) FL fwd),
        ⟨tail, i + fixedLenFields fs, mx⟩) := by
  intro fs
  induction fs with
  | nil =>
    intro vs FL fwd i mx tail hlen _ _ _
    have hvs : vs = [] := List.eq_nil_of_length_eq_zero hlen
    subst hvs
    simp [decodeFixedPartLoop, encContainerFixedPart, containerOffsets, fixedLenFields]
  | cons f fs ih =>
    intro vs FL fwd i mx tail hlen hfixbeh hbound hmx
    rcases vs with _ | ⟨v, vs⟩
    · simp at hlen
    · simp only [List.length_cons] at hlen
      have hlen' : vs.length = fs.length := by omega
      have hmem : ∀ fv : SSZT × Value, fv ∈ fs.zip vs → fv ∈ (f :: fs).zip (v :: vs) := by
        intro fv hfv
        simp only [List.zip_cons_cons]
        exact List.mem_cons_of_mem _ hfv
      simp only [List.zip_cons_cons, List.map_cons, List.sum_cons] at hbound ⊢
      rw [fixedLenFields_cons] at hmx ⊢
      unfold decodeFixedPartLoop
      dsimp only
      rw [encContainerFixedPart_cons, containerOffsets_cons]
      by_cases hf : isFixedT f = true
      · simp only [if_pos hf] at hbound hmx ⊢
        obtain ⟨helen, hbeh⟩ := hfixbeh (f, v) (by simp) hf
        dsimp only at helen hbeh
        rw [List.append_assoc]
        rw [hbeh _ i mx (by omega)]
        dsimp only
        rw [if_neg (show ¬ (i + fixedLenT f ≠ i + fixedLenT f) by omega)]
        rw [ih vs FL fwd (i + fixedLenT f) mx tail hlen'
          (fun fv hfv => hfixbeh fv (hmem fv hfv))
          (fun hex => by
            obtain ⟨fv, hfv, hff⟩ := hex
            have := hbound ⟨fv, hmem fv hfv, hff⟩
            omega)
          (by omega)]
        dsimp only
        rw [← Nat.add_assoc]
      · have hf' : isFixedT f = false := by
          cases hb : isFixedT f
          · rfl
          · exact absurd hb hf
        simp only [hf', Bool.false_eq_true, if_false] at hbound hmx ⊢
        simp only [BYTES_PER_LENGTH_OFFSET] at hmx ⊢
        have hb32 := hbound ⟨(f, v), by simp, hf'⟩
        rw [List.append_assoc]
        rw [readOffset_ok (FL + fwd) _ i mx (by omega) (by omega)]
        dsimp only
        rw [if_neg (show ¬ (i + 4 ≠ i + 4) by omega)]
        have hrec := ih vs FL (fwd + (encE f v).length) (i + 4) mx tail hlen'
          (fun fv hfv => hfixbeh fv (hmem fv hfv)) (fun _ => by omega) (by omega)
        rw [hrec]
        dsimp only
        rw [← Nat.add_assoc]

theorem map_zip_map_slots (decF : SSZT → DecFn) :
    ∀ (fs : List SSZT) (vs : List Value), vs.length = fs.length →
    (fs.map (fun f => (⟨isFixedT f, fixedLenT f, decF f⟩ : FieldH))).zip
      ((fs.zip vs).map (fun fv => if isFixedT fv.1 then some fv.2 else none))
    = (fs.zip vs).map (fun fv =>
        ((⟨isFixedT fv.1, fixedLenT fv.1, decF fv.1⟩ : FieldH),
          if isFixedT fv.1 then some fv.2 else none)) := by
  intro fs
  induction fs with
  | nil => intro vs _; rfl
  | cons f fs ih =>
    intro vs hlen
    rcases vs with _ | ⟨v, vs⟩
    · simp at hlen
    · simp only [List.length_cons] at hlen
      simp only [List.zip_cons_cons, List.map_cons]
      rw [ih vs (by omega)]

theorem decodeDynamicPart_step (fh : FieldH) (slot : Option Value)
    (rest : List (FieldH × Option Value)) (offsets : List Nat) (r : Reader) :
    decodeDynamicPart ((fh, slot) :: rest) offsets r =
      if fh.isFixed then
        match slot with
        | some v =>
          match decodeDynamicPart rest offsets r with
          | (.error e, r') => (.error e, r')
          | (.ok vs, r') => (.ok (v :: vs), r')
        | none => (.error .internalErr, r)
      else
        match offsets with
        | [] => (.error .internalErr, r)
        | currentOffset :: orest =>
          match (match orest with
            | nextOffset :: _ =>
              if nextOffset ≥ currentOffset then Except.ok (nextOffset - currentOffset)
              else Except.error Err.invalidOffset
            | [] => Except.ok (r.max - currentOffset)) with
          | .error e => (.error e, r)
          | .ok scopeSize =>
            match decodeOffsetElem fh.decFn currentOffset scopeSize r with
            | (.error e, r') => (.error e, r')
            | (.ok v, r') =>
              match decodeDynamicPart rest orest r' with
              | (.error e, r'') => (.error e, r'')
              | (.ok vs, r'') => (.ok (v :: vs), r'') := rfl

/-- When every field is fixed, the dynamic pass only copies the already
decoded slots and leaves the reader untouched. -/
theorem decodeDynamicPart_fixed_only (decF : SSZT → DecFn) :
    ∀ (fs : List SSZT) (vs : List Value) (offsets : List Nat) (r : Reader),
    vs.length = fs.length →
    (∀ f ∈ fs, isFixedT f = true) →
    decodeDynamicPart
      ((fs.zip vs).map (fun fv =>
        ((⟨isFixedT fv.1, fixedLenT fv.1, decF fv.1⟩ : FieldH),
          if isFixedT fv.1 then some fv.2 else none)))
      offsets r = (.ok vs, r) := by
  intro fs
  induction fs with
  | nil =>
    intro vs offsets r hlen _
    have hvs : vs = [] := List.eq_nil_of_length_eq_zero hlen
    subst hvs
    rfl
  | cons f fs ih =>
    intro vs offsets r hlen hfix
    rcases vs with _ | ⟨v, vs⟩
    · simp at hlen
    · simp only [List.length_cons] at hlen
      have hlen' : vs.length = fs.length := by omega
      have hf : isFixedT f = true := hfix f (List.mem_cons_self f fs)
      simp only [List.zip_cons_cons, List.map_cons]
      rw [decodeDynamicPart_step]
      dsimp only
      simp only [if_pos hf]
      rw [ih vs offsets r hlen' (fun g hg => hfix g (List.mem_cons_of_mem f hg))]

/-- The dynamic pass of the container decode: starting right after the fixed
part with the recorded offsets, it restores every variable field from the
forward queue's payloads and ends with the scope exhausted. -/
theorem decodeDynamicPart_parse (decF : SSZT → DecFn) (encE : SSZT → Value → Bytes) :
    ∀ (fs : List SSZT) (vs : List Value) (FL fwd mx : Nat) (rest : Bytes),
    vs.length = fs.length →
    (∀ fv : SSZT × Value, fv ∈ fs.zip vs → isFixedT fv.1 = false →
      ∀ rest', decF fv.1 ⟨encE fv.1 fv.2 ++ rest', 0, (encE fv.1 fv.2).length⟩
        = (.ok fv.2, ⟨rest', (encE fv.1 fv.2).length, (encE fv.1 fv.2).length⟩)) →
    mx = FL + fwd + ((fs.zip vs).map
        (fun fv => if isFixedT fv.1 then 0 else (encE fv.1 fv.2).length)).sum →
    decodeDynamicPart
      ((fs.zip vs).map (fun fv =>
        ((⟨isFixedT fv.1, fixedLenT fv.1, decF fv.1⟩ : FieldH),
          if isFixedT fv.1 then some fv.2 else none)))
      (containerOffsets ((fs.zip vs).map (fun fv => (isFixedT fv.1, encE fv.1 fv.2))) FL fwd)
      ⟨encContainerVarPart ((fs.zip vs).map (fun fv => (isFixedT fv.1, encE fv.1 fv.2))) ++ rest,
        FL + fwd, mx⟩
      = (.ok vs, ⟨rest, mx, mx⟩) := by
  intro fs
  induction fs with
  | nil =>
    intro vs FL fwd mx rest hlen _ hmx
    have hvs : vs = [] := List.eq_nil_of_length_eq_zero hlen
    subst hvs
    simp only [List.zip_nil_right, List.map_nil, List.sum_nil, Nat.add_zero] at hmx
    subst hmx
    simp [decodeDynamicPart, encContainerVarPart, containerOffsets]
  | cons f fs ih =>
    intro vs FL fwd mx rest hlen hvar hmx
    rcases vs with _ | ⟨v, vs⟩
    · simp at hlen
    · simp only [List.length_cons] at hlen
      have hlen' : vs.length = fs.length := by omega
      have hmem : ∀ fv : SSZT × Value, fv ∈ fs.zip vs → fv ∈ (f :: fs).zip (v :: vs) := by
        intro fv hfv
        simp only [List.zip_cons_cons]
        exact List.mem_cons_of_mem _ hfv
      simp only [List.zip_cons_cons, List.map_cons, List.sum_cons] at hmx ⊢
      rw [containerOffsets_cons, encContainerVarPart_cons]
      rw [decodeDynamicPart_step]
      dsimp only
      by_cases hf : isFixedT f = true
      · simp only [if_pos hf] at hmx ⊢
        rw [ih vs FL fwd mx rest hlen'
          (fun fv hfv => hvar fv (hmem fv hfv)) (by omega)]
      · have hf' : isFixedT f = false := by
          cases hb : isFixedT f
          · rfl
          · exact absurd hb hf
        simp only [hf', Bool.false_eq_true, if_false] at hmx ⊢
        have hvbeh := hvar (f, v) (by simp) hf'
        dsimp only at hvbeh
        have hscope : (match containerOffsets
              ((fs.zip vs).map (fun fv => (isFixedT fv.1, encE fv.1 fv.2))) FL
              (fwd + (encE f v).length) with
            | nextOffset :: _ => if nextOffset ≥ FL + fwd then Except.ok (nextOffset - (FL + fwd))
                else Except.error Err.invalidOffset
            | [] => Except.ok (mx - (FL + fwd))) = Except.ok ((encE f v).length) := by
          rcases containerOffsets_shape
              ((fs.zip vs).map (fun fv => (isFixedT fv.1, encE fv.1 fv.2))) FL
              (fwd + (encE f v).length) with hnil | ⟨os', hcons⟩
          · rw [hnil]
            dsimp only
            have h0 := containerOffsets_nil_sum _ _ _ hnil
            have h0' : ((fs.zip vs).map
                (fun fv => if isFixedT fv.1 then 0 else (encE fv.1 fv.2).length)).sum = 0 := by
              simpa [List.map_map, Function.comp] using h0
            congr 1
            omega
          · rw [hcons]
            dsimp only
            rw [if_pos (by omega)]
            congr 1
            omega
        rw [hscope]
        dsimp only
        unfold decodeOffsetElem
        dsimp only
        rw [if_neg (show ¬ (FL + fwd ≠ FL + fwd) by omega)]
        unfold scopeReader
        dsimp only
        rw [if_neg (show ¬ (mx - (FL + fwd) < (encE f v).length) by omega)]
        dsimp only
        rw [List.append_assoc]
        rw [hvbeh (encContainerVarPart
          ((fs.zip vs).map (fun fv => (isFixedT fv.1, encE fv.1 fv.2))) ++ rest)]
        dsimp only [updateIndexFromScoped]
        have hrec := ih vs FL (fwd + (encE f v).length) mx rest hlen'
          (fun fv hfv => hvar fv (hmem fv hfv)) (by omega)
        rw [Nat.add_assoc FL fwd (encE f v).length]
        rw [hrec]

theorem containerOffsets_all_fixed :
    ∀ (pairs : List (Bool × Bytes)) (FL fwd : Nat), (∀ p ∈ pairs, p.1 = true) →
    containerOffsets pairs FL fwd = [] := by
  intro pairs
  induction pairs with
  | nil => intro FL fwd _; rfl
  | cons p rest ih =>
    intro FL fwd h
    rcases p with ⟨b, bs⟩
    have hb := h (b, bs) (List.mem_cons_self _ _)
    simp only at hb
    subst hb
    unfold containerOffsets
    exact ih FL fwd (fun q hq => h q (List.mem_cons_of_mem _ hq))

theorem seriesOffsets_congr (f g : Value → Nat) :
    ∀ (vs : List Value) (base : Nat), (∀ v ∈ vs, f v = g v) →
    seriesOffsets f vs base = seriesOffsets g vs base := by
  intro vs
  induction vs with
  | nil => intro base _; rfl
  | cons v rest ih =>
    intro base h
    unfold seriesOffsets
    rw [h v (List.mem_cons_self v rest),
      ih (base + g v) (fun u hu => h u (List.mem_cons_of_mem v hu))]

/-- Round trip: a well-formed kind's valid, offset-fitting value decodes back
from its own encoding — inline at any position for a fixed kind, in an
exactly scoped fresh reader for a variable kind. -/
theorem decode_enc_ok : ∀ (fuel : Nat) (t : SSZT) (v : Value),
    depthT t ≤ fuel → wfT t = true → validF fuel t v = true → fitsF fuel t v = true →
    ((isFixedT t = true →
      ∀ (rest : Bytes) (i mx : Nat), i + fixedLenT t ≤ mx →
      decode fuel t ⟨enc fuel t v ++ rest, i, mx⟩
        = (.ok v, ⟨rest, i + fixedLenT t, mx⟩)) ∧
    (isFixedT t = false →
      ∀ rest : Bytes,
      decode fuel t ⟨enc fuel t v ++ rest, 0, (enc fuel t v).length⟩
        = (.ok v, ⟨rest, (enc fuel t v).length, (enc fuel t v).length⟩))) := by
  intro fuel
  induction fuel with
  | zero =>
    intro t v hd _ _ _
    have := depthT_pos t
    omega
  | succ fuel ih =>
    intro t v hd hwf hv hfit
    cases t with
    | tu8 =>
      rcases v with n | b | vs
      · constructor
        · intro _ rest i mx hmx
          have hn : n < 256 := by simpa [validF] using hv
          simp only [fixedLenT] at hmx ⊢
          rw [enc_u8]
          conv_lhs => rw [decode]
          have hrb := readBytes_ok_of_prefix (leBytes 1 n) rest i mx
            (by rw [leBytes_length]; omega)
          rw [leBytes_length] at hrb
          rw [hrb]
          dsimp only
          rw [fromLEBytes_leBytes 1 n (by simpa using hn)]
        · intro hcontra; simp [isFixedT] at hcontra
      · exact absurd hv (by simp [validF])
      · exact absurd hv (by simp [validF])
    | tu16 =>
      rcases v with n | b | vs
      · constructor
        · intro _ rest i mx hmx
          have hn : n < 65536 := by simpa [validF] using hv
          simp only [fixedLenT] at hmx ⊢
          rw [enc_u16]
          conv_lhs => rw [decode]
          have hrb := readBytes_ok_of_prefix (leBytes 2 n) rest i mx
            (by rw [leBytes_length]; omega)
          rw [leBytes_length] at hrb
          rw [hrb]
          dsimp only
          rw [fromLEBytes_leBytes 2 n (by norm_num; omega)]
        · intro hcontra; simp [isFixedT] at hcontra
      · exact absurd hv (by simp [validF])
      · exact absurd hv (by simp [validF])
    | tu32 =>
      rcases v with n | b | vs
      · constructor
        · intro _ rest i mx hmx
          have hn : n < 4294967296 := by simpa [validF] using hv
          simp only [fixedLenT] at hmx ⊢
          rw [enc_u32]
          conv_lhs => rw [decode]
          have hrb := readBytes_ok_of_prefix (leBytes 4 n) rest i mx
            (by rw [leBytes_length]; omega)
          rw [leBytes_length] at hrb
          rw [hrb]
          dsimp only
          rw [fromLEBytes_leBytes 4 n (by norm_num; omega)]
        · intro hcontra; simp [isFixedT] at hcontra
      · exact absurd hv (by simp [validF])
      · exact absurd hv (by simp [validF])
    | tu64 =>
      rcases v with n | b | vs
      · constructor
        · intro _ rest i mx hmx
          have hn : n < 18446744073709551616 := by simpa [validF] using hv
          simp only [fixedLenT] at hmx ⊢
          rw [enc_u64]
          conv_lhs => rw [decode]
          have hrb := readBytes_ok_of_prefix (leBytes 8 n) rest i mx
            (by rw [leBytes_length]; omega)
          rw [leBytes_length] at hrb
          rw [hrb]
          dsimp only
          rw [fromLEBytes_leBytes 8 n (by norm_num; omega)]
        · intro hcontra; simp [isFixedT] at hcontra
      · exact absurd hv (by simp [validF])
      · exact absurd hv (by simp [validF])
    | tbool =>
      rcases v with n | b | vs
      · exact absurd hv (by simp [validF])
      · constructor
        · intro _ rest i mx hmx
          simp only [fixedLenT] at hmx ⊢
          rw [enc_bool]
          conv_lhs => rw [decode]
          dsimp only
          have hrb := readBytes_ok_of_prefix [if b then 1 else 0] rest i mx
            (by simpa using hmx)
          rw [show ([if b then 1 else 0] : Bytes).length = 1 from rfl] at hrb
          rw [hrb]
          dsimp only
          cases b
          · simp [fromLEBytes]
          · simp [fromLEBytes]
        · intro hcontra; simp [isFixedT] at hcontra
      · exact absurd hv (by simp [validF])
    | tptr e =>
      have hd' : depthT e ≤ fuel := by simp only [depthT] at hd; omega
      have hv' : validF fuel e v = true := hv
      have hfit' : fitsF fuel e v = true := fitsF_ptr fuel e v hfit
      have hwf' : wfT e = true := by simpa [wfT] using hwf
      obtain ⟨hFix, hVar⟩ := ih e v hd' hwf' hv' hfit'
      constructor
      · intro hf rest i mx hmx
        have hf' : isFixedT e = true := by simpa [isFixedT] using hf
        simp only [fixedLenT] at hmx ⊢
        conv_lhs => rw [decode]
        rw [enc_ptr]
        exact hFix hf' rest i mx hmx
      · intro hf rest
        have hf' : isFixedT e = false := by simpa [isFixedT] using hf
        conv_lhs => rw [decode]
        rw [enc_ptr]
        exact hVar hf' rest
    | tvector e n =>
      obtain ⟨vs, rfl, hlen, hall⟩ := validF_vector_inv fuel e n v hv
      have hd' : depthT e ≤ fuel := by simp only [depthT] at hd; omega
      have hwf' : wfT e = true := by simpa [wfT] using hwf
      have helems := fitsF_vector_elems fuel e n vs hfit
      by_cases hfe : isFixedT e = true
      · constructor
        · intro _ rest i mx hmx
          rw [enc_vector_fixed fuel e n vs hfe]
          have hfl : fixedLenT (.tvector e n) = fixedLenT e * n := by simp [fixedLenT]
          rw [hfl] at hmx ⊢
          conv_lhs => rw [decode]
          rw [if_pos hfe]
          rw [← hlen] at hmx ⊢
          have hdec : ∀ w ∈ vs, (enc fuel e w).length = fixedLenT e ∧
              ∀ rest' i' mx', i' + fixedLenT e ≤ mx' →
                decode fuel e ⟨enc fuel e w ++ rest', i', mx'⟩
                  = (.ok w, ⟨rest', i' + fixedLenT e, mx'⟩) := by
            intro w hw
            refine ⟨encLen_fixed fuel e w hd' (hall w hw) hfe, ?_⟩
            intro rest' i' mx' hmx'
            exact (ih e w hd' hwf' (hall w hw) (helems w hw)).1 hfe rest' i' mx' hmx'
          rw [decodeFixedSeries_parse (decode fuel e) (enc fuel e) (fixedLenT e) vs rest i mx
            hdec (by omega)]
        · intro hcontra
          rw [show isFixedT (.tvector e n) = isFixedT e from rfl, hfe] at hcontra
          exact Bool.noConfusion hcontra
      · have hfe' : isFixedT e = false := by
          cases hb : isFixedT e
          · rfl
          · exact absurd hb hfe
        constructor
        · intro hcontra
          rw [show isFixedT (.tvector e n) = isFixedT e from rfl, hfe'] at hcontra
          exact Bool.noConfusion hcontra
        · intro _ rest
          by_cases hvs : vs = []
          · subst hvs
            have hn0 : n = 0 := by simpa using hlen.symm
            subst hn0
            have henc : enc (fuel + 1) (.tvector e 0) (.vseq []) = [] := by
              rw [enc_vector_var fuel e 0 [] hfe']
              rfl
            rw [henc]
            simp only [List.nil_append, List.length_nil]
            conv_lhs => rw [decode]
            rw [if_neg (by simp [hfe'])]
            simp [readVarSeriesOffsets, decodeVarSeriesFromOffsets]
          · have hsz : ∀ w ∈ vs, sszSize fuel e w = (enc fuel e w).length := fun w hw =>
              sszSize_eq_encLen fuel e w hd' (hall w hw)
            have hLenc : (enc (fuel + 1) (.tvector e n) (.vseq vs)).length
                = 4 * vs.length + (vs.map (fun w => (enc fuel e w).length)).sum := by
              rw [enc_vector_var fuel e n vs hfe', List.length_append,
                encVarSeriesOffsets_length, length_flatten_map]
            have hfitL : 4 * vs.length + (vs.map (fun w => (enc fuel e w).length)).sum
                < 4294967296 := by
              rw [← hLenc]
              exact fitsF_var_bound fuel (.tvector e n) (.vseq vs) hfit
                (by simpa [isFixedT] using hfe')
            rw [hLenc]
            rw [enc_vector_var fuel e n vs hfe']
            rw [encVarSeriesOffsets_eq]
            simp only [Nat.add_zero]
            rw [seriesOffsets_congr _ _ vs (4 * vs.length) hsz]
            rw [List.append_assoc]
            conv_lhs => rw [decode]
            rw [if_neg (by simp [hfe'])]
            rw [← hlen]
            have hOSlen : (seriesOffsets (fun w => (enc fuel e w).length) vs
                (4 * vs.length)).length = vs.length := seriesOffsets_length _ vs _
            have hONe : seriesOffsets (fun w => (enc fuel e w).length) vs
                (4 * vs.length) ≠ [] := by
              intro hO
              have h0 : vs.length = 0 := by rw [← hOSlen, hO]; rfl
              exact hvs (List.eq_nil_of_length_eq_zero h0)
            have hhead : (seriesOffsets (fun w => (enc fuel e w).length) vs
                (4 * vs.length)).head? = some (4 * (seriesOffsets
                  (fun w => (enc fuel e w).length) vs (4 * vs.length)).length) := by
              rw [hOSlen]
              rcases vs with _ | ⟨v0, vs0⟩
              · exact absurd rfl hvs
              · simp [seriesOffsets]
            have hbound : ∀ o ∈ seriesOffsets (fun w => (enc fuel e w).length) vs
                (4 * vs.length), o < 4294967296 := by
              intro o ho
              have h1 := seriesOffsets_le (fun w => (enc fuel e w).length) vs
                (4 * vs.length) o ho
              omega
            have hro := readVarSeriesOffsets_parse
              (seriesOffsets (fun w => (enc fuel e w).length) vs (4 * vs.length))
              ((vs.map (fun w => enc fuel e w)).flatten ++ rest)
              (4 * vs.length + (vs.map (fun w => (enc fuel e w).length)).sum)
              hONe hhead hbound (by rw [hOSlen]; omega)
            rw [hOSlen] at hro
            rw [hro]
            dsimp only
            rw [decodeVarSeriesFromOffsets_parse (decode fuel e) (enc fuel e) vs rest
              (4 * vs.length)
              (4 * vs.length + (vs.map (fun w => (enc fuel e w).length)).sum)
              (fun w hw rest' =>
                (ih e w hd' hwf' (hall w hw) (helems w hw)).2 hfe' rest')
              rfl]
    | tlist e lim =>
      obtain ⟨vs, rfl, hlim, hall⟩ := validF_list_inv fuel e lim v hv
      have hd' : depthT e ≤ fuel := by simp only [depthT] at hd; omega
      have hwfsplit : (isFixedT e = false ∨ fixedLenT e ≠ 0) ∧ wfT e = true := by
        have h := hwf
        simp only [wfT, Bool.and_eq_true, Bool.or_eq_true, Bool.not_eq_true',
          decide_eq_true_eq] at h
        exact h
      have hwf' : wfT e = true := hwfsplit.2
      have helems := fitsF_list_elems fuel e lim vs hfit
      constructor
      · intro hcontra
        simp [isFixedT] at hcontra
      · intro _ rest
        by_cases hfe : isFixedT e = true
        · have hwz : fixedLenT e ≠ 0 := by
            rcases hwfsplit.1 with h1 | h1
            · rw [hfe] at h1; exact Bool.noConfusion h1
            · exact h1
          have hLflat : ((vs.map (fun w => enc fuel e w)).flatten).length
              = fixedLenT e * vs.length := by
            rw [length_flatten_map, sum_map_of_const vs (fun w => (enc fuel e w).length)
              (fixedLenT e) (fun w hw => encLen_fixed fuel e w hd' (hall w hw) hfe)]
            ring
          rw [enc_list_fixed fuel e lim vs hfe]
          rw [hLflat]
          conv_lhs => rw [decode]
          dsimp only
          rw [if_pos hfe]
          rw [Nat.sub_zero]
          rw [if_neg hwz]
          rw [if_neg (by simp [Nat.mul_mod_right])]
          rw [Nat.mul_div_cancel_left vs.length (Nat.pos_of_ne_zero hwz)]
          rw [if_neg (show ¬ (vs.length > lim) by omega)]
          have hdec : ∀ w ∈ vs, (enc fuel e w).length = fixedLenT e ∧
              ∀ rest' i' mx', i' + fixedLenT e ≤ mx' →
                decode fuel e ⟨enc fuel e w ++ rest', i', mx'⟩
                  = (.ok w, ⟨rest', i' + fixedLenT e, mx'⟩) := by
            intro w hw
            refine ⟨encLen_fixed fuel e w hd' (hall w hw) hfe, ?_⟩
            intro rest' i' mx' hmx'
            exact (ih e w hd' hwf' (hall w hw) (helems w hw)).1 hfe rest' i' mx' hmx'
          rw [decodeFixedSeries_parse (decode fuel e) (enc fuel e) (fixedLenT e) vs rest 0
            (fixedLenT e * vs.length) hdec (by omega)]
          rw [Nat.zero_add]
        · have hfe' : isFixedT e = false := by
            cases hb : isFixedT e
            · rfl
            · exact absurd hb hfe
          by_cases hvs : vs = []
          · subst hvs
            have henc : enc (fuel + 1) (.tlist e lim) (.vseq []) = [] := by
              rw [enc_list_var fuel e lim [] hfe']
              rfl
            rw [henc]
            simp only [List.nil_append, List.length_nil]
            conv_lhs => rw [decode]
            dsimp only
            rw [if_neg (by simp [hfe'])]
            simp [readVarSliceOffsets, decodeVarSeriesFromOffsets]
          · have hlen1 : 1 ≤ vs.length := by
              rcases vs with _ | ⟨v0, vs0⟩
              · exact absurd rfl hvs
              · simp
            have hsz : ∀ w ∈ vs, sszSize fuel e w = (enc fuel e w).length := fun w hw =>
              sszSize_eq_encLen fuel e w hd' (hall w hw)
            have hLenc : (enc (fuel + 1) (.tlist e lim) (.vseq vs)).length
                = 4 * vs.length + (vs.map (fun w => (enc fuel e w).length)).sum := by
              rw [enc_list_var fuel e lim vs hfe', List.length_append,
                encVarSeriesOffsets_length, length_flatten_map]
            have hfitL : 4 * vs.length + (vs.map (fun w => (enc fuel e w).length)).sum
                < 4294967296 := by
              rw [← hLenc]
              exact fitsF_var_bound fuel (.tlist e lim) (.vseq vs) hfit (by simp [isFixedT])
            have hmin0 : vs.length * fixedLenT e
                ≤ (vs.map (fun w => (enc fuel e w).length)).sum :=
              sum_map_lower vs _ (fixedLenT e)
                (fun w hw => fixedLenT_le_encLen fuel e w hd' (hall w hw) hfe')
            rw [hLenc]
            rw [enc_list_var fuel e lim vs hfe']
            rw [encVarSeriesOffsets_eq]
            simp only [Nat.add_zero]
            rw [seriesOffsets_congr _ _ vs (4 * vs.length) hsz]
            rw [List.append_assoc]
            conv_lhs => rw [decode]
            dsimp only
            rw [if_neg (by simp [hfe'])]
            rw [Nat.sub_zero]
            have hOSlen : (seriesOffsets (fun w => (enc fuel e w).length) vs
                (4 * vs.length)).length = vs.length := seriesOffsets_length _ vs _
            have hONe : seriesOffsets (fun w => (enc fuel e w).length) vs
                (4 * vs.length) ≠ [] := by
              intro hO
              have h0 : vs.length = 0 := by rw [← hOSlen, hO]; rfl
              exact hvs (List.eq_nil_of_length_eq_zero h0)
            have hhead : (seriesOffsets (fun w => (enc fuel e w).length) vs
                (4 * vs.length)).head? = some (4 * (seriesOffsets
                  (fun w => (enc fuel e w).length) vs (4 * vs.length)).length) := by
              rw [hOSlen]
              rcases vs with _ | ⟨v0, vs0⟩
              · exact absurd rfl hvs
              · simp [seriesOffsets]
            have hbound : ∀ o ∈ seriesOffsets (fun w => (enc fuel e w).length) vs
                (4 * vs.length), o < 4294967296 := by
              intro o ho
              have h1 := seriesOffsets_le (fun w => (enc fuel e w).length) vs
                (4 * vs.length) o ho
              omega
            have hro := readVarSliceOffsets_parse (fixedLenT e)
              (4 * vs.length + (vs.map (fun w => (enc fuel e w).length)).sum) lim
              (4 * vs.length + (vs.map (fun w => (enc fuel e w).length)).sum)
              (seriesOffsets (fun w => (enc fuel e w).length) vs (4 * vs.length))
              ((vs.map (fun w => enc fuel e w)).flatten ++ rest)
              (by omega) hONe hhead (by rw [hOSlen]; omega) (by rw [hOSlen]; omega)
              (by rw [hOSlen, Nat.mul_comm]; omega)
              hbound (by rw [hOSlen]; omega)
            rw [hOSlen] at hro
            rw [hro]
            dsimp only
            rw [decodeVarSeriesFromOffsets_parse (decode fuel e) (enc fuel e) vs rest
              (4 * vs.length)
              (4 * vs.length + (vs.map (fun w => (enc fuel e w).length)).sum)
              (fun w hw rest' =>
                (ih e w hd' hwf' (hall w hw) (helems w hw)).2 hfe' rest')
              rfl]
    | tcontainer fs =>
      obtain ⟨vs, rfl, hlen, hall⟩ := validF_container_inv fuel fs v hv
      have hdf : depthFields fs ≤ fuel := by simp only [depthT] at hd; omega
      have hdmem : ∀ fv : SSZT × Value, fv ∈ fs.zip vs → depthT fv.1 ≤ fuel := by
        intro fv hfv
        have := depthFields_mem fs fv.1 (List.of_mem_zip hfv).1
        omega
      have hwfmem : ∀ fv : SSZT × Value, fv ∈ fs.zip vs → wfT fv.1 = true := by
        intro fv hfv
        exact wfFields_mem fs (by simpa [wfT] using hwf) fv.1 (List.of_mem_zip hfv).1
      have hfitmem := fitsF_container_fields fuel fs vs hfit
      have hfieldF : ∀ fv : SSZT × Value, fv ∈ fs.zip vs → isFixedT fv.1 = true →
          (enc fuel fv.1 fv.2).length = fixedLenT fv.1 ∧
          (∀ rest' i' mx', i' + fixedLenT fv.1 ≤ mx' →
            decode fuel fv.1 ⟨enc fuel fv.1 fv.2 ++ rest', i', mx'⟩
              = (.ok fv.2, ⟨rest', i' + fixedLenT fv.1, mx'⟩)) := by
        intro fv hfv hff
        refine ⟨encLen_fixed fuel fv.1 fv.2 (hdmem fv hfv) (hall fv hfv) hff, ?_⟩
        intro rest' i' mx' hmx'
        exact (ih fv.1 fv.2 (hdmem fv hfv) (hwfmem fv hfv) (hall fv hfv)
          (hfitmem fv hfv)).1 hff rest' i' mx' hmx'
      have hfieldV : ∀ fv : SSZT × Value, fv ∈ fs.zip vs → isFixedT fv.1 = false →
          ∀ rest', decode fuel fv.1
              ⟨enc fuel fv.1 fv.2 ++ rest', 0, (enc fuel fv.1 fv.2).length⟩
            = (.ok fv.2, ⟨rest', (enc fuel fv.1 fv.2).length,
                (enc fuel fv.1 fv.2).length⟩) := by
        intro fv hfv hff rest'
        exact (ih fv.1 fv.2 (hdmem fv hfv) (hwfmem fv hfv) (hall fv hfv)
          (hfitmem fv hfv)).2 hff rest'
      constructor
      · intro hf rest i mx hmx
        have hallfix : ∀ f ∈ fs, isFixedT f = true :=
          isFixedFields_mem fs (by simpa [isFixedT] using hf)
        have hpairsfix : ∀ p ∈ (fs.zip vs).map
            (fun fv => (isFixedT fv.1, enc fuel fv.1 fv.2)), p.1 = true := by
          intro p hp
          obtain ⟨fv, hfv, rfl⟩ := List.mem_map.mp hp
          exact hallfix fv.1 (List.of_mem_zip hfv).1
        rw [enc_container fuel fs vs]
        rw [encContainerVarPart_all_fixed _ hpairsfix, List.append_nil]
        simp only [fixedLenT] at hmx ⊢
        conv_lhs => rw [decode]
        unfold containerDecode decodeFixedPart
        dsimp only
        rw [decodeFixedPartLoop_parse (decode fuel) (enc fuel) fs vs (fixedLenFields fs) 0
          i mx rest hlen hfieldF
          (fun hex => by
            obtain ⟨fv, hfv, hff⟩ := hex
            rw [hallfix fv.1 (List.of_mem_zip hfv).1] at hff
            exact Bool.noConfusion hff)
          (by omega)]
        dsimp only
        rw [if_neg (show ¬ (i + fixedLenFields fs ≠ fixedLenFields fs + i) by omega)]
        dsimp only
        rw [containerOffsets_all_fixed _ _ _ hpairsfix]
        rw [map_zip_map_slots (decode fuel) fs vs hlen]
        rw [decodeDynamicPart_fixed_only (decode fuel) fs vs []
          ⟨rest, i + fixedLenFields fs, mx⟩ hlen hallfix]
      · intro hf rest
        have hfixlen : (encContainerFixedPart
            ((fs.zip vs).map (fun fv => (isFixedT fv.1, enc fuel fv.1 fv.2)))
            (fixedLenFields fs) 0).length = fixedLenFields fs :=
          fixPartLen_eq fuel fs vs _ _ hdf hlen hall
        have hcomp2 : ((fun p : Bool × Bytes => if p.1 = true then 0 else p.2.length)
            ∘ (fun fv : SSZT × Value => (isFixedT fv.1, enc fuel fv.1 fv.2)))
            = fun fv : SSZT × Value =>
                if isFixedT fv.1 = true then 0 else (enc fuel fv.1 fv.2).length := rfl
        have hvarlen : (encContainerVarPart
            ((fs.zip vs).map (fun fv => (isFixedT fv.1, enc fuel fv.1 fv.2)))).length
            = ((fs.zip vs).map
                (fun fv => if isFixedT fv.1 then 0 else (enc fuel fv.1 fv.2).length)).sum := by
          rw [encContainerVarPart_length, List.map_map, hcomp2]
        have hLenc : (enc (fuel + 1) (.tcontainer fs) (.vseq vs)).length
            = fixedLenFields fs + ((fs.zip vs).map
                (fun fv => if isFixedT fv.1 then 0 else (enc fuel fv.1 fv.2).length)).sum := by
          rw [enc_container, List.length_append, hfixlen, hvarlen]
        have hB : fixedLenFields fs + ((fs.zip vs).map
            (fun fv => if isFixedT fv.1 then 0 else (enc fuel fv.1 fv.2).length)).sum
            < 4294967296 := by
          rw [← hLenc]
          exact fitsF_var_bound fuel (.tcontainer fs) (.vseq vs) hfit hf
        rw [hLenc]
        rw [enc_container fuel fs vs]
        rw [List.append_assoc]
        conv_lhs => rw [decode]
        unfold containerDecode decodeFixedPart
        dsimp only
        rw [decodeFixedPartLoop_parse (decode fuel) (enc fuel) fs vs (fixedLenFields fs) 0
          0 (fixedLenFields fs + ((fs.zip vs).map
            (fun fv => if isFixedT fv.1 then 0 else (enc fuel fv.1 fv.2).length)).sum)
          (encContainerVarPart
            ((fs.zip vs).map (fun fv => (isFixedT fv.1, enc fuel fv.1 fv.2))) ++ rest)
          hlen hfieldF (fun _ => by omega) (by omega)]
        dsimp only
        rw [if_neg (show ¬ (0 + fixedLenFields fs ≠ fixedLenFields fs + 0) by omega)]
        dsimp only
        rw [map_zip_map_slots (decode fuel) fs vs hlen]
        rw [show (0 : Nat) + fixedLenFields fs = fixedLenFields fs + 0 from by omega]
        rw [decodeDynamicPart_parse (decode fuel) (enc fuel) fs vs (fixedLenFields fs) 0
          (fixedLenFields fs + ((fs.zip vs).map
            (fun fv => if isFixedT fv.1 then 0 else (enc fuel fv.1 fv.2).length)).sum)
          rest hlen hfieldV (by omega)]

/-- A successful variable-size series decode always ends with the scope
exhausted: the `[]` case of `decodeVarSeriesFromOffsets` rejects a reader
whose index is not `max` (`scopeNotExhausted`), and each element advances
the parent within the same `max`. -/
theorem decodeVarSeriesFromOffsets_exhausts (decFn : DecFn) :
    ∀ (offs : List Nat) (r : Reader) (vs : List Value) (r' : Reader),
    decodeVarSeriesFromOffsets decFn offs r = (.ok vs, r') →
    r'.max = r.max ∧ r'.i = r'.max := by
  intro offs
  induction offs with
  | nil =>
    intro r vs r' h
    unfold decodeVarSeriesFromOffsets at h
    by_cases hir : r.i ≠ r.max
    · rw [if_pos hir] at h
      simp at h
    · rw [if_neg hir] at h
      injection h with h1 h2
      subst h2
      push_neg at hir
      exact ⟨rfl, hir⟩
  | cons o os ih =>
    intro r vs r' h
    unfold decodeVarSeriesFromOffsets at h
    dsimp only at h
    by_cases hio : r.i ≠ o
    · rw [if_pos hio] at h
      simp at h
    · rw [if_neg hio] at h
      rcases hsc : (match os with
          | nextOffset :: _ => if nextOffset ≥ r.i then Except.ok (nextOffset - r.i)
              else Except.error Err.invalidOffset
          | [] => Except.ok (r.max - r.i)) with e | scopeSize
      · rw [hsc] at h
        simp at h
      · rw [hsc] at h
        dsimp only at h
        rcases hscr : scopeReader r scopeSize with e | child
        · rw [hscr] at h
          simp at h
        · rw [hscr] at h
          dsimp only at h
          rcases hdec : decFn child with ⟨res, child'⟩
          rw [hdec] at h
          rcases res with e | v
          · simp at h
          · dsimp only at h
            rcases hrec : decodeVarSeriesFromOffsets decFn os (updateIndexFromScoped r child')
              with ⟨res2, r''⟩
            rw [hrec] at h
            rcases res2 with e2 | vs2
            · simp at h
            · dsimp only at h
              injection h with h1 h2
              obtain ⟨hm, hi⟩ := ih (updateIndexFromScoped r child') vs2 r'' hrec
              rw [← h2]
              exact ⟨by rw [hm]; rfl, hi⟩

/-- The container's dynamic pass fails on a decreasing adjacent offset pair
(lines 244–248 of `decodeDynamicPart`): as long as the offsets do not run
out before the variable fields do — the fixed pass records one offset per
variable field, so in a container decode they never do — the pass reaches
the decreasing pair at some variable field and rejects it with
`invalidOffset` (or has already failed), for any field decoders. -/
theorem decodeDynamicPart_decreasing_fails :
    ∀ (pairs : List (FieldH × Option Value)) (offsets : List Nat) (r : Reader),
    hasDecreasingAdjacent offsets = true →
    offsets.length ≤ pairs.countP (fun p => ! p.1.isFixed) →
    isErr (decodeDynamicPart pairs offsets r).1 = true := by
  intro pairs
  induction pairs with
  | nil =>
    intro offsets r h hcount
    simp only [List.countP_nil, Nat.le_zero] at hcount
    have hoff : offsets = [] := List.eq_nil_of_length_eq_zero hcount
    subst hoff
    simp [hasDecreasingAdjacent] at h
  | cons p rest ih =>
    intro offsets r h hcount
    rcases p with ⟨f, slot⟩
    rw [decodeDynamicPart_step]
    by_cases hf : f.isFixed = true
    · rw [if_pos hf]
      rcases slot with _ | v
      · simp [isErr]
      · have hcount' : offsets.length ≤ rest.countP (fun p => ! p.1.isFixed) := by
          simp [List.countP_cons, hf] at hcount
          omega
        have hrest := ih offsets r h hcount'
        rcases hrec : decodeDynamicPart rest offsets r with ⟨res, r'⟩
        cases res with
        | error e => simp [isErr]
        | ok vs =>
          rw [hrec] at hrest
          simp [isErr] at hrest
    · have hf' : f.isFixed = false := by
        cases hb : f.isFixed
        · rfl
        · exact absurd hb hf
      rw [hf']
      simp only [Bool.false_eq_true, if_false]
      rcases offsets with _ | ⟨o1, orest⟩
      · simp [hasDecreasingAdjacent] at h
      · rcases orest with _ | ⟨o2, orest'⟩
        · simp [hasDecreasingAdjacent] at h
        · dsimp only
          by_cases hdec : o2 ≥ o1
          · rw [if_pos hdec]
            have hrec2 : hasDecreasingAdjacent (o2 :: orest') = true := by
              simp only [hasDecreasingAdjacent, Bool.or_eq_true, decide_eq_true_eq] at h
              rcases h with h | h
              · omega
              · exact h
            dsimp only
            rcases hoe : decodeOffsetElem f.decFn o1 (o2 - o1) r with ⟨res, r'⟩
            cases res with
            | error e => simp [isErr]
            | ok v =>
              dsimp only
              have hcount' : (o2 :: orest').length ≤ rest.countP (fun p => ! p.1.isFixed) := by
                simp [List.countP_cons, hf'] at hcount
                simp only [List.length_cons] at hcount ⊢
                omega
              have hrest := ih (o2 :: orest') r' hrec2 hcount'
              rcases hr2 : decodeDynamicPart rest (o2 :: orest') r' with ⟨res2, r''⟩
              cases res2 with
              | error e => simp [isErr]
              | ok vs =>
                rw [hr2] at hrest
                simp [isErr] at hrest
          · rw [if_neg hdec]
            simp [isErr]

/-- **C5.** For every decode of a variable-size series or of a container's
dynamic fields: (1) accepted offsets are non-decreasing — any decreasing
adjacent pair fails the series decode regardless of the element decoder;
(2) at the start of each element the reader's index must equal the recorded
offset, otherwise the series decode fails; (3) likewise a container dynamic
field whose expected offset differs from the reader's index fails
(`decodeOffsetElem`); (4) a decreasing adjacent pair likewise fails the
container's dynamic-field pass (`decodeDynamicPart`), whose offsets — one
per variable field, as the fixed pass records them — do not run out before
the variable fields do. -/
theorem C5_offset_monotonicity_and_boundaries (decFn : DecFn) :
    (∀ (offsets : List Nat) (r : Reader), hasDecreasingAdjacent offsets = true →
      isErr (decodeVarSeriesFromOffsets decFn offsets r).1 = true)
    ∧ (∀ (o : Nat) (rest : List Nat) (r : Reader), r.i ≠ o →
      decodeVarSeriesFromOffsets decFn (o :: rest) r = (.error .offsetIndexMismatch, r))
    ∧ (∀ (expectedOffset scopeSize : Nat) (r : Reader), expectedOffset ≠ r.i →
      decodeOffsetElem decFn expectedOffset scopeSize r = (.error .offsetIndexMismatch, r))
    ∧ (∀ (pairs : List (FieldH × Option Value)) (offsets : List Nat) (r : Reader),
      hasDecreasingAdjacent offsets = true →
      offsets.length ≤ pairs.countP (fun p => ! p.1.isFixed) →
      isErr (decodeDynamicPart pairs offsets r).1 = true) := by
  refine ⟨decodeVarSeriesFromOffsets_decreasing_fails decFn, ?_, ?_,
    decodeDynamicPart_decreasing_fails⟩
  · intro o rest r h
    unfold decodeVarSeriesFromOffsets
    rw [if_pos h]
  · intro expectedOffset scopeSize r h
    unfold decodeOffsetElem
    rw [if_pos h]

/-- Witness for C5 on concrete inputs: a decreasing offset pair `[4, 3]`
fails the series decode and the dynamic pass of a container with two
variable fields, and boundary mismatches fail, for a trivial element
decoder. -/
theorem C5_offset_monotonicity_and_boundaries_witness :
    isErr (decodeVarSeriesFromOffsets (fun rd => (.ok (.vuint 0), rd)) [4, 3]
        ⟨[9, 9], 4, 6⟩).1 = true
    ∧ decodeVarSeriesFromOffsets (fun rd => (.ok (.vuint 0), rd)) [5] ⟨[9, 9], 4, 6⟩
        = (.error .offsetIndexMismatch, ⟨[9, 9], 4, 6⟩)
    ∧ decodeOffsetElem (fun rd => (.ok (.vuint 0), rd)) 3 1 ⟨[9, 9], 4, 6⟩
        = (.error .offsetIndexMismatch, ⟨[9, 9], 4, 6⟩)
    ∧ isErr (decodeDynamicPart
        [(⟨false, 0, fun rd => (.ok (.vuint 0), rd)⟩, none),
          (⟨false, 0, fun rd => (.ok (.vuint 0), rd)⟩, none)]
        [4, 3] ⟨[9, 9], 4, 6⟩).1 = true :=
  ⟨(C5_offset_monotonicity_and_boundaries (fun rd => (.ok (.vuint 0), rd))).1 [4, 3]
      ⟨[9, 9], 4, 6⟩ (by decide),
    (C5_offset_monotonicity_and_boundaries (fun rd => (.ok (.vuint 0), rd))).2.1 5 []
      ⟨[9, 9], 4, 6⟩ (by decide),
    (C5_offset_monotonicity_and_boundaries (fun rd => (.ok (.vuint 0), rd))).2.2.1 3 1
      ⟨[9, 9], 4, 6⟩ (by decide),
    (C5_offset_monotonicity_and_boundaries (fun rd => (.ok (.vuint 0), rd))).2.2.2
      [(⟨false, 0, fun rd => (.ok (.vuint 0), rd)⟩, none),
        (⟨false, 0, fun rd => (.ok (.vuint 0), rd)⟩, none)]
      [4, 3] ⟨[9, 9], 4, 6⟩ (by decide) (by decide)⟩

/-- C1 (corrected): round trip `decode(encode(v)) = v` holds once the kind is
well-formed (no fixed-size list element of size zero — `wfT`) and every
variable-size composite of `v` encodes below `2^32` bytes so the written
offsets do not truncate (`fitsT`); the original claim, quantified over every
kind and valid value alike, is refuted by `C1_round_trip_counterexample`. -/
theorem C1_round_trip (t : SSZT) (v : Value)
    (hwf : wfT t = true) (hv : validT t v = true) (hfit : fitsT t v = true) :
    decodeTop t (encTop t v)
      = (.ok v, ⟨[], (encTop t v).length, (encTop t v).length⟩) := by
  unfold validT at hv
  unfold fitsT at hfit
  unfold decodeTop encTop
  obtain ⟨hF, hV⟩ := decode_enc_ok (depthT t) t v le_rfl hwf hv hfit
  by_cases hfix : isFixedT t = true
  · have hL := encLen_fixed (depthT t) t v le_rfl hv hfix
    have h := hF hfix [] 0 (enc (depthT t) t v).length (by omega)
    rw [List.append_nil] at h
    rw [h, Nat.zero_add, ← hL]
  · have hfix' : isFixedT t = false := by
      cases hb : isFixedT t
      · rfl
      · exact absurd hb hfix
    have h := hV hfix' []
    rw [List.append_nil] at h
    exact h

/-- C1, witness: a container of a `uint8` and a `uint8` list round-trips
through its 7-byte encoding. -/
theorem C1_round_trip_witness :
    wfT (.tcontainer [.tu8, .tlist .tu8 3]) = true ∧
    validT (.tcontainer [.tu8, .tlist .tu8 3])
      (.vseq [.vuint 7, .vseq [.vuint 1, .vuint 2]]) = true ∧
    fitsT (.tcontainer [.tu8, .tlist .tu8 3])
      (.vseq [.vuint 7, .vseq [.vuint 1, .vuint 2]]) = true ∧
    decodeTop (.tcontainer [.tu8, .tlist .tu8 3])
        (encTop (.tcontainer [.tu8, .tlist .tu8 3])
          (.vseq [.vuint 7, .vseq [.vuint 1, .vuint 2]]))
      = (.ok (.vseq [.vuint 7, .vseq [.vuint 1, .vuint 2]]),
          ⟨[], (encTop (.tcontainer [.tu8, .tlist .tu8 3])
              (.vseq [.vuint 7, .vseq [.vuint 1, .vuint 2]])).length,
            (encTop (.tcontainer [.tu8, .tlist .tu8 3])
              (.vseq [.vuint 7, .vseq [.vuint 1, .vuint 2]])).length⟩) :=
  ⟨rfl, rfl, rfl,
    C1_round_trip (.tcontainer [.tu8, .tlist .tu8 3])
      (.vseq [.vuint 7, .vseq [.vuint 1, .vuint 2]]) rfl rfl rfl⟩

/-- C1, counterexample to the claim as stated: `List[Vector[uint8, 0], 4]` is
a kind of the algebra and `[[], []]` a valid value of it whose offsets fit,
yet decoding its own encoding fails — the element count `bytes_len /
elem_fixed_len` divides by zero (`DecodeFixedSlice`), so no decode recovers
the value. -/
theorem C1_round_trip_counterexample :
    validT (.tlist (.tvector .tu8 0) 4) (.vseq [.vseq [], .vseq []]) = true ∧
    fitsT (.tlist (.tvector .tu8 0) 4) (.vseq [.vseq [], .vseq []]) = true ∧
    (decodeTop (.tlist (.tvector .tu8 0) 4)
      (encTop (.tlist (.tvector .tu8 0) 4) (.vseq [.vseq [], .vseq []]))).1
      = .error .divisionByZero :=
  ⟨rfl, rfl, rfl⟩

/-- C3 (corrected): for a variable-size series, a successful
`decodeVarSeriesFromOffsets` leaves the reader's index equal to the scope's
`max` (the series decoder checks `scopeNotExhausted`); for containers no
such final check exists — `C3_container_counterexample` decodes a container
in a scope of size 2 successfully with final index 1. -/
theorem C3_scope_exactness_amended (decFn : DecFn) (offs : List Nat) (r : Reader)
    (vs : List Value) (r' : Reader)
    (h : decodeVarSeriesFromOffsets decFn offs r = (.ok vs, r')) :
    r'.max = r.max ∧ r'.i = r'.max :=
  decodeVarSeriesFromOffsets_exhausts decFn offs r vs r' h

/-- C3, witness: a one-element `uint8` series decoded from offset 0 in a
one-byte scope ends at index `1 = max`. -/
theorem C3_scope_exactness_amended_witness :
    (Reader.mk [] 1 1).max = (Reader.mk [9] 0 1).max ∧
    (Reader.mk [] 1 1).i = (Reader.mk [] 1 1).max :=
  C3_scope_exactness_amended (decode 1 .tu8) [0] ⟨[9], 0, 1⟩ [.vuint 9]
    ⟨[], 1, 1⟩ rfl

/-- C3, counterexample to the claim as stated: the container `{uint8}` is
decoded in a scope of size 2 holding `[5, 7]`; the decode succeeds with the
reader's index at 1, not 2 — neither `decodeFixedPart` nor
`decodeDynamicPart` checks that the scope was exhausted. -/
theorem C3_container_counterexample :
    (decode 2 (.tcontainer [.tu8]) ⟨[5, 7], 0, 2⟩).1 = .ok (.vseq [.vuint 5]) ∧
    (decode 2 (.tcontainer [.tu8]) ⟨[5, 7], 0, 2⟩).2.i = 1 ∧ (1 : Nat) ≠ 2 :=
  ⟨rfl, rfl, by decide⟩

end ZSSZ
